import Mathlib

/-!
# gif-h: a shallow embedding of the GIF encoder (gif.h / gif.cpp)

Bytes, machine integers and indices are natural numbers.  A `uint8_t` buffer is a
`List Nat`, read with `List.getD _ _ 0` and written with `List.set`.  The output
`FILE *` is the list of bytes written so far; a null pointer is `none`.
Unsigned 32-bit arithmetic carries an explicit `% 2 ^ 32` where it can wrap.
-/

namespace GifH

/-! ## Data model (gif.h) -/

/-- The constant `kGifTransIndex`. -/
def kGifTransIndex : Nat := 0

/-- The struct `GifPalette`: the bit depth and the three 256-entry channel arrays,
each array as its index function (every index used by the code is a `uint8_t`,
or below `1 << bitDepth`). -/
structure GifPalette where
  bitDepth : Nat
  r : Nat → Nat
  g : Nat → Nat
  b : Nat → Nat

/-- The struct `GifBitStatus`. -/
structure GifBitStatus where
  bitIndex : Nat
  byte : Nat
  chunkIndex : Nat
  chunk : List Nat
  deriving DecidableEq, Repr

/-- The struct `GifWriter`; each pointer field is `none` when null.  The field `f`
carries the bytes written to the open file so far. -/
structure GifWriter where
  f : Option (List Nat)
  oldImage : Option (List Nat)
  firstFrame : Bool
  globalPal : Option GifPalette

/-- The call `fputc(c, f)`: the value is written converted to `unsigned char`. -/
def fputc (c : Nat) (f : List Nat) : List Nat := f ++ [c % 256]

/-- The call `fputs(s, f)` on an ASCII literal. -/
def fputs (s : String) (f : List Nat) : List Nat := f ++ s.toList.map Char.toNat

/-! ## GifDeltaImage -/

/-- Stores the four bytes of one pixel at `outFrame[0..3]`, `outFrame` pointing
at offset `off` of the buffer. -/
def storePixel (out : List Nat) (off c0 c1 c2 c3 : Nat) : List Nat :=
  (((out.set off c0).set (off + 1) c1).set (off + 2) c2).set (off + 3) c3

/-- The body of the loop of `GifDeltaImage` for the pixel `ii`: `lastFrame` and
`outFrame` have been advanced by `4 * ii`. -/
def GifDeltaPixel (lastFrame : Option (List Nat)) (nextFrame8 : List Nat)
    (pPal : GifPalette) (outFrame : List Nat) (ii : Nat) : List Nat :=
  let ind := nextFrame8.getD ii 0
  match lastFrame with
  | some last =>
    if last.getD (4 * ii) 0 = pPal.r ind ∧ last.getD (4 * ii + 1) 0 = pPal.g ind ∧
        last.getD (4 * ii + 2) 0 = pPal.b ind then
      storePixel outFrame (4 * ii) (last.getD (4 * ii) 0) (last.getD (4 * ii + 1) 0)
        (last.getD (4 * ii + 2) 0) kGifTransIndex
    else
      storePixel outFrame (4 * ii) (pPal.r ind) (pPal.g ind) (pPal.b ind) ind
  | none =>
    storePixel outFrame (4 * ii) (pPal.r ind) (pPal.g ind) (pPal.b ind) ind

/-- The function `GifDeltaImage` when `lastFrame` is null or a buffer distinct
from `outFrame`; the result is the content of `outFrame` on return. -/
def GifDeltaImage (lastFrame : Option (List Nat)) (nextFrame8 outFrame : List Nat)
    (width height : Nat) (pPal : GifPalette) : List Nat :=
  let numPixels := (width * height) % 2 ^ 32
  (List.range numPixels).foldl
    (fun out ii => GifDeltaPixel lastFrame nextFrame8 pPal out ii) outFrame

/-- The function `GifDeltaImage` when `lastFrame` and `outFrame` are the same
buffer (the call that `GifWriteFrame8` makes after the first frame): every
iteration reads the previous colour from the buffer as it stands. -/
def GifDeltaImageInPlace (nextFrame8 frame : List Nat)
    (width height : Nat) (pPal : GifPalette) : List Nat :=
  let numPixels := (width * height) % 2 ^ 32
  (List.range numPixels).foldl
    (fun out ii => GifDeltaPixel (some out) nextFrame8 pPal out ii) frame

/-! ## Bit writer -/

/-- The function `GifWriteBit`. -/
def GifWriteBit (stat : GifBitStatus) (bit : Nat) : GifBitStatus :=
  let bit := bit &&& 1
  let bit := (bit <<< stat.bitIndex) % 2 ^ 32
  let byte := (stat.byte ||| bit) % 256
  let bitIndex := (stat.bitIndex + 1) % 256
  if bitIndex > 7 then
    { bitIndex := 0, byte := 0, chunkIndex := (stat.chunkIndex + 1) % 2 ^ 32,
      chunk := stat.chunk.set stat.chunkIndex byte }
  else
    { stat with bitIndex := bitIndex, byte := byte }

/-- The function `GifWriteChunk`: the length byte, then `chunkIndex` bytes of the
chunk buffer. -/
def GifWriteChunk (f : List Nat) (stat : GifBitStatus) : List Nat × GifBitStatus :=
  (fputc stat.chunkIndex f ++ stat.chunk.take stat.chunkIndex,
    { stat with bitIndex := 0, byte := 0, chunkIndex := 0 })

/-- The function `GifWriteCode`: `length` iterations of the loop. -/
def GifWriteCode : List Nat × GifBitStatus → Nat → Nat → List Nat × GifBitStatus
  | fs, _, 0 => fs
  | (f, stat), code, length + 1 =>
    let stat := GifWriteBit stat code
    let code := code >>> 1
    if stat.chunkIndex = 255 then
      GifWriteCode (GifWriteChunk f stat) code length
    else
      GifWriteCode (f, stat) code length

/-- The loop `while( stat.bitIndex ) GifWriteBit(stat, 0)` run for at most
`fuel` iterations. -/
def padLoop : Nat → GifBitStatus → GifBitStatus
  | 0, stat => stat
  | fuel + 1, stat =>
    if stat.bitIndex ≠ 0 then padLoop fuel (GifWriteBit stat 0) else stat

/-- A fresh `GifBitStatus` as `GifWriteLzwImage` sets it up (`byte`, `bitIndex` and
`chunkIndex` zeroed), over a chunk buffer with the given content. -/
def freshStatus (chunk : List Nat) : GifBitStatus :=
  { bitIndex := 0, byte := 0, chunkIndex := 0, chunk := chunk }

/-! ## GifWritePalette -/

/-- The function `GifWritePalette`. -/
def GifWritePalette (pPal : GifPalette) (f : List Nat) : List Nat :=
  let f := fputc 0 (fputc 0 (fputc 0 f))
  (List.range' 1 ((1 <<< pPal.bitDepth) - 1)).foldl
    (fun f ii => fputc (pPal.b ii) (fputc (pPal.g ii) (fputc (pPal.r ii) f))) f

/-! ## GifWriteLzwImage -/

/-- The local state of the compression loop of `GifWriteLzwImage`.  The code tree
`codetree[c].m_next[v]` is the function `codetree c v`. -/
structure LzwState where
  f : List Nat
  stat : GifBitStatus
  codetree : Nat → Nat → Nat
  curCode : Int
  codeSize : Nat
  maxCode : Nat

/-- Conversion of an `int32_t` to `uint32_t`. -/
def toU32 (x : Int) : Nat := (x % 2 ^ 32).toNat

/-- The body of the pixel loop of `GifWriteLzwImage` for the value `nextValue`. -/
def lzwStep (minCodeSize clearCode : Nat) (s : LzwState) (nextValue : Nat) : LzwState :=
  if s.curCode < 0 then
    { s with curCode := nextValue }
  else if s.codetree s.curCode.toNat nextValue ≠ 0 then
    { s with curCode := s.codetree s.curCode.toNat nextValue }
  else
    let fs := GifWriteCode (s.f, s.stat) (toU32 s.curCode) s.codeSize
    let maxCode := (s.maxCode + 1) % 2 ^ 32
    let codetree := fun c v =>
      if c = s.curCode.toNat ∧ v = nextValue then maxCode % 2 ^ 16 else s.codetree c v
    let codeSize := if maxCode ≥ 1 <<< s.codeSize then s.codeSize + 1 else s.codeSize
    if maxCode = 4095 then
      let fs := GifWriteCode fs clearCode codeSize
      { f := fs.1, stat := fs.2, codetree := fun _ _ => 0, curCode := nextValue,
        codeSize := minCodeSize + 1, maxCode := clearCode + 1 }
    else
      { f := fs.1, stat := fs.2, codetree := codetree, curCode := nextValue,
        codeSize := codeSize, maxCode := maxCode }

/-- The values `image[(yy * width + xx) * 4 + 3]` in the order in which the two
nested loops of `GifWriteLzwImage` read them. -/
def lzwPixels (image : List Nat) (width height : Nat) : List Nat :=
  (List.range height).flatMap fun yy =>
    (List.range width).map fun xx => image.getD (((yy * width + xx) * 4 + 3) % 2 ^ 32) 0

/-- The fixed fields that `GifWriteLzwImage` writes first: the graphics control
extension, the image descriptor and the minimum code size. -/
def lzwHeader (f : List Nat) (left top width height delay : Nat) (pPal : GifPalette) :
    List Nat :=
  let f := fputc 0x21 f
  let f := fputc 0xf9 f
  let f := fputc 0x04 f
  let f := fputc 0x05 f
  let f := fputc (delay &&& 0xff) f
  let f := fputc ((delay >>> 8) &&& 0xff) f
  let f := fputc kGifTransIndex f
  let f := fputc 0 f
  let f := fputc 0x2c f
  let f := fputc (left &&& 0xff) f
  let f := fputc ((left >>> 8) &&& 0xff) f
  let f := fputc (top &&& 0xff) f
  let f := fputc ((top >>> 8) &&& 0xff) f
  let f := fputc (width &&& 0xff) f
  let f := fputc ((width >>> 8) &&& 0xff) f
  let f := fputc (height &&& 0xff) f
  let f := fputc ((height >>> 8) &&& 0xff) f
  let f := fputc 0 f
  let minCodeSize := pPal.bitDepth
  fputc minCodeSize f

/-- The state with which the pixel loop starts: an empty code tree, a fresh
`GifBitStatus` (the chunk buffer, uninitialised in C and never read before it is
written, is zero-filled here) and the first clear code written. -/
def lzwInit (f : List Nat) (pPal : GifPalette) : LzwState :=
  let minCodeSize := pPal.bitDepth
  let clearCode := (1 <<< pPal.bitDepth) % 2 ^ 32
  let codeSize := minCodeSize + 1
  let stat := freshStatus (List.replicate 256 0)
  let fs := GifWriteCode (f, stat) clearCode codeSize
  { f := fs.1, stat := fs.2, codetree := fun _ _ => 0, curCode := -1,
    codeSize := codeSize, maxCode := clearCode + 1 }

/-- The end of frame of `GifWriteLzwImage`, "write out the last partial chunk":
the padding loop (eight iterations always suffice, see `padLoop_exits`) and the
conditional `GifWriteChunk`. -/
def flushLast (fs : List Nat × GifBitStatus) : List Nat × GifBitStatus :=
  let stat := padLoop 8 fs.2
  if stat.chunkIndex ≠ 0 then GifWriteChunk fs.1 stat else (fs.1, stat)

/-- The compression footer and the last partial chunk (everything after the
pixel loop except the block terminator). -/
def lzwFinish (minCodeSize clearCode : Nat) (s : LzwState) : List Nat × GifBitStatus :=
  let fs := GifWriteCode (s.f, s.stat) (toU32 s.curCode) s.codeSize
  let fs := GifWriteCode fs clearCode s.codeSize
  let fs := GifWriteCode fs ((clearCode + 1) % 2 ^ 32) (minCodeSize + 1)
  flushLast fs

/-- The function `GifWriteLzwImage`; the result is the file after the call. -/
def GifWriteLzwImage (f image : List Nat) (left top width height delay : Nat)
    (pPal : GifPalette) : List Nat :=
  let f := lzwHeader f left top width height delay pPal
  let minCodeSize := pPal.bitDepth
  let clearCode := (1 <<< pPal.bitDepth) % 2 ^ 32
  let s := (lzwPixels image width height).foldl (lzwStep minCodeSize clearCode)
    (lzwInit f pPal)
  let fs := lzwFinish minCodeSize clearCode s
  fputc 0 fs.1

/-! ## Session functions -/

/-- The function `GifBegin`.  `garbage` is the content of the memory that
`GIF_MALLOC` returns for `oldImage`.  The result is `none` when the call
dereferences a null palette; otherwise the returned flag and the writer. -/
def GifBegin (writer : GifWriter) (file : Option (List Nat)) (width height delay : Nat)
    (globalPal : Option GifPalette) (garbage : Nat → Nat) : Option (Bool × GifWriter) :=
  match file with
  | none => some (false, writer)
  | some f =>
    let oldImage := (List.range ((width * height * 4) % 2 ^ 32)).map garbage
    let f := fputs "GIF89a" f
    let f := fputc (width &&& 0xff) f
    let f := fputc ((width >>> 8) &&& 0xff) f
    let f := fputc (height &&& 0xff) f
    let f := fputc ((height >>> 8) &&& 0xff) f
    let f := match globalPal with
      | some pal => fputc (((0xf0 + ((pal.bitDepth : Int) - 1)) % 256).toNat) f
      | none => fputc 0xf0 f
    let f := fputc 0 f
    let f := fputc 0 f
    match globalPal with
    | none => none
    | some pal =>
      let f := GifWritePalette pal f
      let f :=
        if delay ≠ 0 then
          let f := fputc 0x21 f
          let f := fputc 0xff f
          let f := fputc 11 f
          let f := fputs "NETSCAPE2.0" f
          let f := fputc 3 f
          let f := fputc 1 f
          let f := fputc 0 f
          let f := fputc 0 f
          fputc 0 f
        else f
      some (true, { f := some f, oldImage := some oldImage, firstFrame := true,
                    globalPal := some pal })

/-- The function `GifWriteFrame8`.  The result is `none` when the call writes
through a null `oldImage`; otherwise the returned flag and the writer. -/
def GifWriteFrame8 (writer : GifWriter) (image : List Nat) (width height delay : Nat) :
    Option (Bool × GifWriter) :=
  match writer.f with
  | none => some (false, writer)
  | some f =>
    match writer.globalPal with
    | none => some (false, writer)
    | some pal =>
      match writer.oldImage with
      | none => none
      | some old =>
        let delta :=
          if writer.firstFrame then GifDeltaImage none image old width height pal
          else GifDeltaImageInPlace image old width height pal
        let f := GifWriteLzwImage f delta 0 0 width height delay pal
        some (true, { f := some f, oldImage := some delta, firstFrame := false,
                      globalPal := some pal })

/-- The function `GifEnd`.  The result is the returned flag, the writer and the
content of the file that the call has closed, `none` when it has closed none. -/
def GifEnd (writer : GifWriter) : Bool × GifWriter × Option (List Nat) :=
  match writer.f with
  | none => (false, writer, none)
  | some f =>
    (true,
      { f := none, oldImage := none, firstFrame := writer.firstFrame, globalPal := none },
      some (fputc 0x3b f))

/-! ## Spec-side definitions for the delta encoder -/

/-- The four channels of pixel `i` of a 32-bit frame buffer. -/
def pixelAt (buf : List Nat) (i : Nat) : Nat × Nat × Nat × Nat :=
  (buf.getD (4 * i) 0, buf.getD (4 * i + 1) 0, buf.getD (4 * i + 2) 0, buf.getD (4 * i + 3) 0)

/-- The per-pixel rule of the specification of the delta encoder: the resolved
colour with the transparency index when a previous frame exists and stores the
same colour at this position, the resolved colour with the palette index
otherwise. -/
def deltaSpecPixel (lastFrame : Option (List Nat)) (pal : GifPalette) (ind i : Nat) :
    Nat × Nat × Nat × Nat :=
  match lastFrame with
  | some last =>
    if (last.getD (4 * i) 0, last.getD (4 * i + 1) 0, last.getD (4 * i + 2) 0)
        = (pal.r ind, pal.g ind, pal.b ind) then
      (pal.r ind, pal.g ind, pal.b ind, 0)
    else (pal.r ind, pal.g ind, pal.b ind, ind)
  | none => (pal.r ind, pal.g ind, pal.b ind, ind)

/-- The first `n` iterations of the loop of `GifDeltaImage`. -/
def deltaLoop (lastFrame : Option (List Nat)) (next : List Nat) (pal : GifPalette)
    (out : List Nat) (n : Nat) : List Nat :=
  (List.range n).foldl (fun out ii => GifDeltaPixel lastFrame next pal out ii) out

/-- The first `n` iterations of the loop of `GifDeltaImage` with `lastFrame`
aliasing `outFrame`. -/
def deltaLoopInPlace (next : List Nat) (pal : GifPalette) (frame : List Nat) (n : Nat) :
    List Nat :=
  (List.range n).foldl (fun out ii => GifDeltaPixel (some out) next pal out ii) frame

/-- A palette for concrete evaluations: entry `i` is the grey level `i % 256`. -/
def greyPalette (bitDepth : Nat) : GifPalette :=
  { bitDepth := bitDepth, r := fun i => i % 256, g := fun i => i % 256, b := fun i => i % 256 }

/-- An uninitialised `GifWriter`, as `GifBegin` expects it. -/
def blankWriter : GifWriter :=
  { f := none, oldImage := none, firstFrame := false, globalPal := none }

/-- Successive `GifWriteFrame8` calls of one session, one per `(image, delay)`;
`none` as soon as a call does not return `true`. -/
def writeFrames (width height : Nat) : GifWriter → List (List Nat × Nat) → Option GifWriter
  | writer, [] => some writer
  | writer, (image, delay) :: rest =>
    match GifWriteFrame8 writer image width height delay with
    | some (true, writer) => writeFrames width height writer rest
    | _ => none

/-! ## Spec-side definitions for the bit writer -/

/-- The low `width` bits of `code`, least significant first. -/
def codeBits (code width : Nat) : List Bool :=
  (List.range width).map fun i => code.testBit i

/-- The number whose binary digits, least significant first, are `bs`. -/
def bitsToByte (bs : List Bool) : Nat :=
  bs.foldr (fun b acc => b.toNat + 2 * acc) 0

/-- A bit string packed into bytes, eight bits per byte, least significant bit
first, the last byte padded with zero bits: `ceil (length / 8)` bytes. -/
def packBits (bs : List Bool) : List Nat :=
  (List.range ((bs.length + 7) / 8)).map fun j => bitsToByte ((bs.drop (8 * j)).take 8)

/-- The bytes of a sequence of data sub-blocks: each block preceded by its length. -/
def encodeBlocks (blocks : List (List Nat)) : List Nat :=
  blocks.flatMap fun b => b.length :: b

/-- A sequence of `GifWriteCode` calls, one per `(code, length)` pair. -/
def writeCodes (fs : List Nat × GifBitStatus) (codes : List (Nat × Nat)) :
    List Nat × GifBitStatus :=
  codes.foldl (fun fs c => GifWriteCode fs c.1 c.2) fs

/-- Ghost state of the bit writer: the completed groups of eight bits and the
bits of the partial byte. -/
def pushBit (gp : List (List Bool) × List Bool) (b : Bool) : List (List Bool) × List Bool :=
  if gp.2.length + 1 = 8 then (gp.1 ++ [gp.2 ++ [b]], []) else (gp.1, gp.2 ++ [b])

/-- The invariant of the bit writer between two iterations of `GifWriteCode`,
relative to the file content `f0` at the start of the frame data: the file holds
full 255-byte blocks, and blocks and chunk buffer together hold the bytes of the
completed groups. -/
def BitInv (f0 : List Nat) (gp : List (List Bool) × List Bool)
    (fs : List Nat × GifBitStatus) : Prop :=
  ∃ blocks : List (List Nat),
    fs.1 = f0 ++ encodeBlocks blocks ∧ (∀ b ∈ blocks, b.length = 255) ∧
    (∀ g ∈ gp.1, g.length = 8) ∧ gp.2.length < 8 ∧
    fs.2.chunk.length = 256 ∧ fs.2.chunkIndex < 255 ∧
    fs.2.bitIndex = gp.2.length ∧ fs.2.byte = bitsToByte gp.2 ∧
    blocks.flatten ++ fs.2.chunk.take fs.2.chunkIndex = gp.1.map bitsToByte

/-! ## Spec-side definitions for the fixed fields -/

/-- A 16-bit value as two bytes, low byte first; of a wider value, its low 16 bits. -/
def u16le (x : Nat) : List Nat := [x % 256, x / 256 % 256]

/-- The global colour table as the specification lays it out: `(0, 0, 0)` for
index 0, then the palette entries 1 to `2 ^ bitDepth - 1` in increasing order. -/
def colorTable (pal : GifPalette) : List Nat :=
  [0, 0, 0] ++ (List.range' 1 (2 ^ pal.bitDepth - 1)).flatMap fun i =>
    [pal.r i, pal.g i, pal.b i]

/-- The 256 entries of each palette array are `uint8_t` values. -/
def paletteBytes (pal : GifPalette) : Prop :=
  ∀ i, i < 256 → pal.r i < 256 ∧ pal.g i < 256 ∧ pal.b i < 256

/-- The looping extension block of the specification. -/
def loopingExtension : List Nat :=
  [0x21, 0xFF, 11] ++ "NETSCAPE2.0".toList.map Char.toNat ++ [3, 1, 0, 0, 0]

/-- The 19 fixed bytes that precede the data sub-blocks of a frame. -/
def frameHeader (left top width height delay bitDepth : Nat) : List Nat :=
  [0x21, 0xF9, 0x04, 0x05] ++ u16le delay ++ [0, 0, 0x2C] ++ u16le left ++ u16le top ++
    u16le width ++ u16le height ++ [0, bitDepth]

/-! ## Reference decoder

A decoder for the data of one frame as the GIF89a specification describes it: the
data sub-blocks are concatenated, the bytes are read as a bit string, least
significant bit first, and the codes are decoded by the LZW algorithm up to the
end-of-information code.  The code width follows the rule of the format: it is
`minCodeSize + 1` after a clear code and grows by one bit, up to 12, as soon as
`clearCode + 1 + n` reaches `2 ^ width` after the `n`-th code since the clear. -/

/-- The payload of a sequence of data sub-blocks up to the zero-length block;
`none` when the sequence is cut short. -/
def subBlockPayload : Nat → List Nat → Option (List Nat)
  | 0, _ => none
  | _ + 1, [] => none
  | _ + 1, 0 :: _ => some []
  | fuel + 1, (l + 1) :: rest =>
    if rest.length < l + 1 then none
    else (subBlockPayload fuel (rest.drop (l + 1))).map fun p => rest.take (l + 1) ++ p

/-- The bits of a byte sequence, least significant bit of each byte first. -/
def bytesToBits (bytes : List Nat) : List Bool :=
  bytes.flatMap fun b => (List.range 8).map fun i => b.testBit i

/-- The state of the reference decoder: the strings of the codes above the end
code, the string of the previous code, the code width, the number of codes since
the last clear code and the indices decoded so far. -/
structure DecoderState where
  table : List (List Nat)
  prev : Option (List Nat)
  width : Nat
  count : Nat
  out : List Nat
  deriving DecidableEq, Repr

/-- The string of a code, `none` for a code that the dictionary does not define. -/
def decodeEntry (clearCode : Nat) (s : DecoderState) (code : Nat) : Option (List Nat) :=
  if code < clearCode then some [code]
  else if code < clearCode + 2 then none
  else if code - (clearCode + 2) < s.table.length then s.table.get? (code - (clearCode + 2))
  else if code - (clearCode + 2) = s.table.length then
    s.prev.bind fun p => p.head?.map fun a => p ++ [a]
  else none

/-- The reference LZW decoder on a bit string; `none` when the stream holds an
undefined code or ends before the end-of-information code. -/
def lzwDecode (minCodeSize : Nat) : Nat → DecoderState → List Bool → Option (List Nat)
  | 0, _, _ => none
  | fuel + 1, s, bits =>
    let clearCode := 2 ^ minCodeSize
    if bits.length < s.width then none
    else
      let code := bitsToByte (bits.take s.width)
      let rest := bits.drop s.width
      if code = clearCode then
        lzwDecode minCodeSize fuel
          { table := [], prev := none, width := minCodeSize + 1, count := 0, out := s.out } rest
      else if code = clearCode + 1 then some s.out
      else
        match decodeEntry clearCode s code with
        | none => none
        | some entry =>
          let table :=
            match s.prev, entry.head? with
            | some p, some a =>
              if clearCode + 2 + s.table.length < 4096 then s.table ++ [p ++ [a]] else s.table
            | _, _ => s.table
          let count := s.count + 1
          let width :=
            if clearCode + 1 + count ≥ 2 ^ s.width ∧ s.width < 12 then s.width + 1 else s.width
          lzwDecode minCodeSize fuel
            { table := table, prev := some entry, width := width, count := count,
              out := s.out ++ entry } rest

/-- The reference decoder on the bytes of a frame that follow the image
descriptor: the minimum-code-size byte, the data sub-blocks and the terminator. -/
def decodeFrameData (frame : List Nat) : Option (List Nat) :=
  match frame with
  | [] => none
  | minCodeSize :: blocks =>
    (subBlockPayload (blocks.length + 1) blocks).bind fun payload =>
      lzwDecode minCodeSize (8 * payload.length + 1)
        { table := [], prev := none, width := minCodeSize + 1, count := 0, out := [] }
        (bytesToBits payload)

/-- The bytes in the file after a session's first frame, from the
minimum-code-size byte of that frame on: `GifBegin` on an empty file, one
`GifWriteFrame8` call, and the frame's 18 fixed bytes skipped. -/
def firstFrameData (pal : GifPalette) (image : List Nat) (width height delay : Nat) :
    Option (List Nat) :=
  (GifBegin blankWriter (some []) width height delay (some pal) (fun _ => 0)).bind fun b =>
    (GifWriteFrame8 b.2 image width height delay).bind fun w =>
      match b.2.f, w.2.f with
      | some header, some file => some (file.drop (header.length + 18))
      | _, _ => none

/-- The codes that a reader takes from a bit string at the given widths. -/
def readCodes : List Nat → List Bool → List Nat
  | [], _ => []
  | w :: ws, bits => bitsToByte (bits.take w) :: readCodes ws (bits.drop w)

/-! ## The control state of the compressor and the codes it writes

The pixel loop of `GifWriteLzwImage` touches the file only through `GifWriteCode`.
`ctlStep` is the loop body on the other local variables, with the list of the
`GifWriteCode` calls it makes in place of their effect; `lzwStep_ctl` and
`GifWriteLzwImage_codes` show that `lzwStep` and `GifWriteLzwImage` are this
machine followed by the writes. -/

/-- A `GifWriteCode` call of `GifWriteLzwImage`: the code of a finished run, a
clear code or the end code, with the width passed. -/
inductive LzwOut where
  | run (code width : Nat)
  | clear (width : Nat)
  | stop (width : Nat)
  deriving DecidableEq, Repr

/-- The arguments `(code, length)` of the call. -/
def LzwOut.pair (clearCode : Nat) : LzwOut → Nat × Nat
  | LzwOut.run code width => (code, width)
  | LzwOut.clear width => (clearCode, width)
  | LzwOut.stop width => ((clearCode + 1) % 2 ^ 32, width)

/-- The local variables `codetree`, `curCode`, `codeSize` and `maxCode`. -/
structure LzwCtl where
  codetree : Nat → Nat → Nat
  curCode : Int
  codeSize : Nat
  maxCode : Nat

/-- The control part of a state of the pixel loop. -/
def ctlOf (s : LzwState) : LzwCtl :=
  { codetree := s.codetree, curCode := s.curCode, codeSize := s.codeSize,
    maxCode := s.maxCode }

/-- The body of the pixel loop on the control state, with the calls of
`GifWriteCode` it makes. -/
def ctlStep (minCodeSize clearCode : Nat) (c : LzwCtl) (nextValue : Nat) :
    LzwCtl × List LzwOut :=
  if c.curCode < 0 then
    ({ c with curCode := nextValue }, [])
  else if c.codetree c.curCode.toNat nextValue ≠ 0 then
    ({ c with curCode := c.codetree c.curCode.toNat nextValue }, [])
  else
    let maxCode := (c.maxCode + 1) % 2 ^ 32
    let codetree := fun k v =>
      if k = c.curCode.toNat ∧ v = nextValue then maxCode % 2 ^ 16 else c.codetree k v
    let codeSize := if maxCode ≥ 1 <<< c.codeSize then c.codeSize + 1 else c.codeSize
    if maxCode = 4095 then
      ({ codetree := fun _ _ => 0, curCode := nextValue, codeSize := minCodeSize + 1,
         maxCode := clearCode + 1 },
        [LzwOut.run (toU32 c.curCode) c.codeSize, LzwOut.clear codeSize])
    else
      ({ codetree := codetree, curCode := nextValue, codeSize := codeSize,
         maxCode := maxCode },
        [LzwOut.run (toU32 c.curCode) c.codeSize])

/-- The pixel loop on the control state: the final state and all calls made. -/
def ctlRun (minCodeSize clearCode : Nat) : LzwCtl → List Nat → LzwCtl × List LzwOut
  | c, [] => (c, [])
  | c, v :: vs =>
    ((ctlRun minCodeSize clearCode (ctlStep minCodeSize clearCode c v).1 vs).1,
      (ctlStep minCodeSize clearCode c v).2 ++
        (ctlRun minCodeSize clearCode (ctlStep minCodeSize clearCode c v).1 vs).2)

/-- The control state with which the pixel loop starts. -/
def ctlInit (pPal : GifPalette) : LzwCtl :=
  { codetree := fun _ _ => 0, curCode := -1, codeSize := pPal.bitDepth + 1,
    maxCode := (1 <<< pPal.bitDepth) % 2 ^ 32 + 1 }

/-- The control state of `GifWriteLzwImage` after the given pixel values. -/
def ctlAfter (pPal : GifPalette) (pixels : List Nat) : LzwCtl :=
  (ctlRun pPal.bitDepth ((1 <<< pPal.bitDepth) % 2 ^ 32) (ctlInit pPal) pixels).1

/-- All `GifWriteCode` calls of `GifWriteLzwImage` for a frame with the given
pixel values: the first clear code, the calls of the pixel loop, and the footer. -/
def frameCodes (pPal : GifPalette) (pixels : List Nat) : List LzwOut :=
  [LzwOut.clear (pPal.bitDepth + 1)] ++
    (ctlRun pPal.bitDepth ((1 <<< pPal.bitDepth) % 2 ^ 32) (ctlInit pPal) pixels).2 ++
    [LzwOut.run (toU32 (ctlAfter pPal pixels).curCode) (ctlAfter pPal pixels).codeSize,
     LzwOut.clear (ctlAfter pPal pixels).codeSize,
     LzwOut.stop (pPal.bitDepth + 1)]

/-- The bounds that tie `codeSize` to `maxCode` in the pixel loop. -/
def WidthInv (bitDepth : Nat) (c : LzwCtl) : Prop :=
  bitDepth + 1 ≤ c.codeSize ∧ c.codeSize ≤ 12 ∧
  2 ^ (c.codeSize - 1) ≤ c.maxCode ∧ c.maxCode < 2 ^ c.codeSize ∧
  2 ^ bitDepth + 1 ≤ c.maxCode ∧ c.maxCode ≤ 4094
/-- The state of the pixel loop of `GifWriteLzwImage` after the pixel values
`pre`, the file holding `f` when the compression starts. -/
def lzwStateAfter (f : List Nat) (pPal : GifPalette) (pre : List Nat) : LzwState :=
  pre.foldl (lzwStep pPal.bitDepth ((1 <<< pPal.bitDepth) % 2 ^ 32)) (lzwInit f pPal)

/-- The codes that the body of the pixel loop writes for the value `v` in the
state `s`. -/
def lzwStepCodes (pPal : GifPalette) (s : LzwState) (v : Nat) : List LzwOut :=
  (ctlStep pPal.bitDepth ((1 <<< pPal.bitDepth) % 2 ^ 32) (ctlOf s) v).2

/-- The codes written from the start of the frame to the end of the pixel values
`pre`: the first clear code and the codes of the pixel loop. -/
def codesAfter (pPal : GifPalette) (pre : List Nat) : List LzwOut :=
  LzwOut.clear (pPal.bitDepth + 1) ::
    (ctlRun pPal.bitDepth ((1 <<< pPal.bitDepth) % 2 ^ 32) (ctlInit pPal) pre).2

/-- The number of run codes in a list of codes after its last clear code. -/
def runsSinceClear (outs : List LzwOut) : Nat :=
  outs.foldl (fun n o =>
    match o with
    | LzwOut.run _ _ => n + 1
    | LzwOut.clear _ => 0
    | LzwOut.stop _ => n) 0

/-- The bounds on the dictionary of the pixel loop for pixel values below `bound`:
the run code is -1 before the first pixel and a pixel value or a stored code
afterwards, at most 4094; a stored code is absent (0) or between the first free
code `2 ^ bitDepth + 2` and `maxCode`. -/
def DictInv (bound bitDepth : Nat) (c : LzwCtl) : Prop :=
  (c.curCode = -1 ∨
    (0 ≤ c.curCode ∧ c.curCode ≤ 4094 ∧
      (c.curCode < bound ∨ (2 ^ bitDepth + 2 : Int) ≤ c.curCode))) ∧
  ∀ k v, c.codetree k v = 0 ∨
    (2 ^ bitDepth + 2 ≤ c.codetree k v ∧ c.codetree k v ≤ c.maxCode)

/-! ## The code widths of a decoder

The width rule of a GIF LZW decoder as the claims state it: the decoder reads at
`minCodeSize + 1` bits after each clear code and widens by one bit, up to 12, as
soon as, after reading its `n`-th code since the clear, `clearCode + 1 + n`
reaches `2 ^ width`. -/

/-- The width at which the decoder reads its next code, and the number of codes
read since the last clear code, after it has read one more code. -/
def decoderNext (minCodeSize : Nat) (wn : Nat × Nat) (code : Nat) : Nat × Nat :=
  if code = 2 ^ minCodeSize then (minCodeSize + 1, 0)
  else
    (if 2 ^ minCodeSize + 1 + (wn.2 + 1) ≥ 2 ^ wn.1 ∧ wn.1 < 12 then wn.1 + 1 else wn.1,
      wn.2 + 1)

/-- The width at which the decoder reads the code that follows `codes`. -/
def decoderWidthAfter (minCodeSize : Nat) (codes : List Nat) : Nat :=
  (codes.foldl (decoderNext minCodeSize) (minCodeSize + 1, 0)).1

/-- The widths at which the decoder reads each code of a sequence. -/
def decoderWidths (minCodeSize : Nat) (codes : List Nat) : List Nat :=
  (List.range codes.length).map fun i => decoderWidthAfter minCodeSize (codes.take i)
/-! ## Spec-side definitions for replaying a session -/

/-- Entry `i` of a colour table of RGB triples. -/
def tableEntry (table : List Nat) (i : Nat) : Nat × Nat × Nat :=
  (table.getD (3 * i) 0, table.getD (3 * i + 1) 0, table.getD (3 * i + 2) 0)

/-- The R, G, B channels of pixel `i` of a 32-bit frame buffer. -/
def rgbAt (buf : List Nat) (i : Nat) : Nat × Nat × Nat :=
  (buf.getD (4 * i) 0, buf.getD (4 * i + 1) 0, buf.getD (4 * i + 2) 0)

/-- The palette colour of pixel `i` of a paletted frame. -/
def resolved (pal : GifPalette) (image : List Nat) (i : Nat) : Nat × Nat × Nat :=
  (pal.r (image.getD i 0), pal.g (image.getD i 0), pal.b (image.getD i 0))

/-- A delta frame replayed on a canvas: a pixel whose index channel is the
transparency index keeps the colour of the canvas, any other pixel takes the
colour-table entry of its index. -/
def composite (table : List Nat) (canvas : Nat → Nat × Nat × Nat) (delta : List Nat) :
    Nat → Nat × Nat × Nat :=
  fun i =>
    if delta.getD (4 * i + 3) 0 = kGifTransIndex then canvas i
    else tableEntry table (delta.getD (4 * i + 3) 0)

/-- Successive `GifWriteFrame8` calls of one session, the delta frame of each
call (the buffer that the call hands to `GifWriteLzwImage`) replayed on the
canvas; `none` as soon as a call does not return `true`. -/
def replayFrames (width height : Nat) (table : List Nat) :
    GifWriter → (Nat → Nat × Nat × Nat) → List (List Nat × Nat) →
      Option (GifWriter × (Nat → Nat × Nat × Nat))
  | writer, canvas, [] => some (writer, canvas)
  | writer, canvas, (image, delay) :: rest =>
    match GifWriteFrame8 writer image width height delay with
    | some (true, writer1) =>
      match writer1.oldImage with
      | some delta => replayFrames width height table writer1 (composite table canvas delta) rest
      | none => none
    | _ => none

/-- The image of the last frame of a list, `prev` for the empty list. -/
def lastImage : List Nat → List (List Nat × Nat) → List Nat
  | prev, [] => prev
  | _, (image, _) :: rest => lastImage image rest

/-! # Lemmas and theorems -/

/-! ## Lemmas on GifDeltaImage -/

theorem storePixel_length (out : List Nat) (off c0 c1 c2 c3 : Nat) :
    (storePixel out off c0 c1 c2 c3).length = out.length := by
  simp [storePixel]

theorem storePixel_getD_outside (out : List Nat) (off c0 c1 c2 c3 idx : Nat)
    (h : idx < off ∨ off + 4 ≤ idx) :
    (storePixel out off c0 c1 c2 c3).getD idx 0 = out.getD idx 0 := by
  simp only [storePixel, List.getD_eq_getElem?_getD]
  rw [List.getElem?_set_ne (by omega), List.getElem?_set_ne (by omega),
    List.getElem?_set_ne (by omega), List.getElem?_set_ne (by omega)]

theorem storePixel_pixel (out : List Nat) (off c0 c1 c2 c3 : Nat)
    (h : off + 4 ≤ out.length) :
    (storePixel out off c0 c1 c2 c3).getD off 0 = c0 ∧
    (storePixel out off c0 c1 c2 c3).getD (off + 1) 0 = c1 ∧
    (storePixel out off c0 c1 c2 c3).getD (off + 2) 0 = c2 ∧
    (storePixel out off c0 c1 c2 c3).getD (off + 3) 0 = c3 := by
  simp only [storePixel, List.getD_eq_getElem?_getD]
  refine ⟨?_, ?_, ?_, ?_⟩
  · rw [List.getElem?_set_ne (by omega), List.getElem?_set_ne (by omega),
      List.getElem?_set_ne (by omega), List.getElem?_set_eq_of_lt _ (by omega)]
    rfl
  · rw [List.getElem?_set_ne (by omega), List.getElem?_set_ne (by omega),
      List.getElem?_set_eq_of_lt _ (by simp; omega)]
    rfl
  · rw [List.getElem?_set_ne (by omega),
      List.getElem?_set_eq_of_lt _ (by simp; omega)]
    rfl
  · rw [List.getElem?_set_eq_of_lt _ (by simp; omega)]
    rfl

theorem GifDeltaPixel_length (lastFrame : Option (List Nat)) (next : List Nat)
    (pal : GifPalette) (out : List Nat) (ii : Nat) :
    (GifDeltaPixel lastFrame next pal out ii).length = out.length := by
  unfold GifDeltaPixel
  cases lastFrame with
  | none => simp [storePixel_length]
  | some last => simp only []; split <;> simp [storePixel_length]

theorem GifDeltaPixel_getD_outside (lastFrame : Option (List Nat)) (next : List Nat)
    (pal : GifPalette) (out : List Nat) (ii idx : Nat) (h : idx < 4 * ii ∨ 4 * ii + 4 ≤ idx) :
    (GifDeltaPixel lastFrame next pal out ii).getD idx 0 = out.getD idx 0 := by
  unfold GifDeltaPixel
  cases lastFrame with
  | none => exact storePixel_getD_outside _ _ _ _ _ _ _ h
  | some last => simp only []; split <;> exact storePixel_getD_outside _ _ _ _ _ _ _ h

theorem GifDeltaPixel_pixel (lastFrame : Option (List Nat)) (next : List Nat)
    (pal : GifPalette) (out : List Nat) (ii : Nat) (h : 4 * ii + 4 ≤ out.length) :
    pixelAt (GifDeltaPixel lastFrame next pal out ii) ii
      = deltaSpecPixel lastFrame pal (next.getD ii 0) ii := by
  unfold GifDeltaPixel deltaSpecPixel pixelAt
  cases lastFrame with
  | none =>
    obtain ⟨h0, h1, h2, h3⟩ := storePixel_pixel out (4 * ii) (pal.r (next.getD ii 0))
      (pal.g (next.getD ii 0)) (pal.b (next.getD ii 0)) (next.getD ii 0) h
    simp only [h0, h1, h2, h3]
  | some last =>
    simp only [Prod.mk.injEq]
    split
    · rename_i hc
      simp only [hc.1, hc.2.1, hc.2.2, kGifTransIndex]
      obtain ⟨h0, h1, h2, h3⟩ := storePixel_pixel out (4 * ii) (pal.r (next.getD ii 0))
        (pal.g (next.getD ii 0)) (pal.b (next.getD ii 0)) 0 h
      simp only [h0, h1, h2, h3]
    · obtain ⟨h0, h1, h2, h3⟩ := storePixel_pixel out (4 * ii) (pal.r (next.getD ii 0))
        (pal.g (next.getD ii 0)) (pal.b (next.getD ii 0)) (next.getD ii 0) h
      simp only [h0, h1, h2, h3]

theorem deltaLoop_succ (lastFrame : Option (List Nat)) (next : List Nat) (pal : GifPalette)
    (out : List Nat) (n : Nat) :
    deltaLoop lastFrame next pal out (n + 1)
      = GifDeltaPixel lastFrame next pal (deltaLoop lastFrame next pal out n) n := by
  simp [deltaLoop, List.range_succ, List.foldl_append]

theorem deltaLoop_length (lastFrame : Option (List Nat)) (next : List Nat) (pal : GifPalette)
    (out : List Nat) (n : Nat) :
    (deltaLoop lastFrame next pal out n).length = out.length := by
  induction n with
  | zero => simp [deltaLoop]
  | succ n ih => rw [deltaLoop_succ, GifDeltaPixel_length, ih]

theorem deltaLoop_getD_ge (lastFrame : Option (List Nat)) (next : List Nat) (pal : GifPalette)
    (out : List Nat) (n idx : Nat) (h : 4 * n ≤ idx) :
    (deltaLoop lastFrame next pal out n).getD idx 0 = out.getD idx 0 := by
  induction n with
  | zero => simp [deltaLoop]
  | succ n ih =>
    rw [deltaLoop_succ, GifDeltaPixel_getD_outside _ _ _ _ _ _ (by omega), ih (by omega)]

theorem pixelAt_congr (a b : List Nat) (i : Nat)
    (h : ∀ idx, 4 * i ≤ idx → idx < 4 * i + 4 → a.getD idx 0 = b.getD idx 0) :
    pixelAt a i = pixelAt b i := by
  simp only [pixelAt]
  rw [h (4 * i) (by omega) (by omega), h (4 * i + 1) (by omega) (by omega),
    h (4 * i + 2) (by omega) (by omega), h (4 * i + 3) (by omega) (by omega)]

theorem deltaLoop_pixel (lastFrame : Option (List Nat)) (next : List Nat) (pal : GifPalette)
    (out : List Nat) (n i : Nat) (hi : i < n) (h : 4 * n ≤ out.length) :
    pixelAt (deltaLoop lastFrame next pal out n) i
      = deltaSpecPixel lastFrame pal (next.getD i 0) i := by
  induction n with
  | zero => omega
  | succ n ih =>
    rw [deltaLoop_succ]
    by_cases hin : i = n
    · subst hin
      exact GifDeltaPixel_pixel _ _ _ _ _ (by rw [deltaLoop_length]; omega)
    · rw [← ih (by omega) (by omega)]
      exact pixelAt_congr _ _ _ fun idx h1 h2 =>
        GifDeltaPixel_getD_outside _ _ _ _ _ _ (by omega)

theorem GifDeltaPixel_congr_last (last last2 : List Nat) (next : List Nat)
    (pal : GifPalette) (out : List Nat) (ii : Nat)
    (h : ∀ idx, 4 * ii ≤ idx → idx < 4 * ii + 4 → last.getD idx 0 = last2.getD idx 0) :
    GifDeltaPixel (some last) next pal out ii = GifDeltaPixel (some last2) next pal out ii := by
  simp only [GifDeltaPixel]
  rw [h (4 * ii) (by omega) (by omega), h (4 * ii + 1) (by omega) (by omega),
    h (4 * ii + 2) (by omega) (by omega)]

theorem deltaLoopInPlace_eq (next : List Nat) (pal : GifPalette) (frame : List Nat) (n : Nat) :
    deltaLoopInPlace next pal frame n = deltaLoop (some frame) next pal frame n := by
  induction n with
  | zero => simp [deltaLoop, deltaLoopInPlace]
  | succ n ih =>
    rw [deltaLoop_succ, ← ih]
    simp only [deltaLoopInPlace, List.range_succ, List.foldl_append, List.foldl_cons,
      List.foldl_nil]
    apply GifDeltaPixel_congr_last
    intro idx h1 _
    have := deltaLoop_getD_ge (some frame) next pal frame n idx h1
    rw [← ih] at this
    exact this

/-- With `lastFrame` aliasing `outFrame`, `GifDeltaImage` computes what it computes
from a separate copy of the previous frame. -/
theorem GifDeltaImageInPlace_eq (next frame : List Nat) (w h : Nat) (pal : GifPalette) :
    GifDeltaImageInPlace next frame w h pal = GifDeltaImage (some frame) next frame w h pal :=
  deltaLoopInPlace_eq next pal frame _

theorem deltaSpecPixel_rgb (lastFrame : Option (List Nat)) (pal : GifPalette) (ind i : Nat) :
    (deltaSpecPixel lastFrame pal ind i).1 = pal.r ind ∧
    (deltaSpecPixel lastFrame pal ind i).2.1 = pal.g ind ∧
    (deltaSpecPixel lastFrame pal ind i).2.2.1 = pal.b ind := by
  unfold deltaSpecPixel
  cases lastFrame with
  | none => simp
  | some last => simp only []; split <;> simp

theorem GifDeltaImage_eq_deltaLoop (lastFrame : Option (List Nat)) (next out : List Nat)
    (w h : Nat) (pal : GifPalette) (hsz : w * h < 2 ^ 32) :
    GifDeltaImage lastFrame next out w h pal = deltaLoop lastFrame next pal out (w * h) := by
  simp only [GifDeltaImage, deltaLoop, Nat.mod_eq_of_lt hsz]

/-- What `GifWriteFrame8` does on an open session. -/
theorem GifWriteFrame8_open (writer : GifWriter) (f old : List Nat) (pal : GifPalette)
    (image : List Nat) (w h delay : Nat)
    (hf : writer.f = some f) (hp : writer.globalPal = some pal)
    (ho : writer.oldImage = some old) :
    GifWriteFrame8 writer image w h delay
      = some (true,
          { f := some (GifWriteLzwImage f
              (GifDeltaImage (if writer.firstFrame then none else some old) image old w h pal)
              0 0 w h delay pal),
            oldImage := some
              (GifDeltaImage (if writer.firstFrame then none else some old) image old w h pal),
            firstFrame := false, globalPal := some pal }) := by
  unfold GifWriteFrame8
  simp only [hf, hp, ho]
  cases writer.firstFrame <;> simp [GifDeltaImageInPlace_eq]

/-- What `GifBegin` does with a file and a palette. -/
theorem GifBegin_open (writer : GifWriter) (f0 : List Nat) (w h delay : Nat)
    (pal : GifPalette) (garbage : Nat → Nat) :
    ∃ f, GifBegin writer (some f0) w h delay (some pal) garbage
      = some (true, { f := some f,
                      oldImage := some ((List.range ((w * h * 4) % 2 ^ 32)).map garbage),
                      firstFrame := true, globalPal := some pal }) := by
  unfold GifBegin
  exact ⟨_, rfl⟩

/-! ## Shared lemmas on GifWriteFrame8 -/

/-- After a `GifWriteFrame8` call that returns true on a session whose
previous-frame buffer holds `width * height` pixels, the R, G, B channels of the
stored previous-frame buffer at every pixel `i` are the palette colour of
`image[i]`. -/
theorem GifWriteFrame8_stored_rgb (writer writer1 : GifWriter) (old : List Nat)
    (pal : GifPalette) (image : List Nat) (width height delay : Nat)
    (hcall : GifWriteFrame8 writer image width height delay = some (true, writer1))
    (hp : writer.globalPal = some pal) (ho : writer.oldImage = some old)
    (hsz : width * height < 2 ^ 32) (hlen : 4 * (width * height) ≤ old.length) :
    ∃ stored, writer1.oldImage = some stored ∧ stored.length = old.length ∧
      ∀ i, i < width * height →
        stored.getD (4 * i) 0 = pal.r (image.getD i 0) ∧
        stored.getD (4 * i + 1) 0 = pal.g (image.getD i 0) ∧
        stored.getD (4 * i + 2) 0 = pal.b (image.getD i 0) := by
  cases hf : writer.f with
  | none => simp [GifWriteFrame8, hf] at hcall
  | some f =>
    rw [GifWriteFrame8_open writer f old pal image width height delay hf hp ho] at hcall
    simp only [Option.some.injEq, Prod.mk.injEq, true_and] at hcall
    subst hcall
    refine ⟨_, rfl, ?_, fun i hi => ?_⟩
    · rw [GifDeltaImage_eq_deltaLoop _ _ _ _ _ _ hsz]
      exact deltaLoop_length _ _ _ _ _
    · have hpix := deltaLoop_pixel (if writer.firstFrame then none else some old) image pal old
        (width * height) i hi hlen
      have hrgb := deltaSpecPixel_rgb (if writer.firstFrame then none else some old) pal
        (image.getD i 0) i
      rw [← hpix] at hrgb
      rw [GifDeltaImage_eq_deltaLoop _ _ _ _ _ _ hsz]
      exact hrgb

/-- A run of `GifWriteFrame8` calls on an open session succeeds, keeps the session
open with the same palette and buffer size, and leaves the first-frame flag
cleared once a frame has been written. -/
theorem writeFrames_open (width height : Nat) (hsz : width * height < 2 ^ 32)
    (pal : GifPalette) (frames : List (List Nat × Nat)) :
    ∀ (writer : GifWriter) (f old : List Nat), writer.f = some f →
      writer.globalPal = some pal → writer.oldImage = some old →
      ∃ wk fk oldk, writeFrames width height writer frames = some wk ∧ wk.f = some fk ∧
        wk.globalPal = some pal ∧ wk.oldImage = some oldk ∧ oldk.length = old.length ∧
        (frames ≠ [] ∨ writer.firstFrame = false → wk.firstFrame = false) := by
  induction frames with
  | nil =>
    intro writer f old hf hp ho
    exact ⟨writer, f, old, rfl, hf, hp, ho, rfl, fun h => h.elim (fun h => absurd rfl h) id⟩
  | cons fr rest ih =>
    intro writer f old hf hp ho
    obtain ⟨image, delay⟩ := fr
    have h1 := GifWriteFrame8_open writer f old pal image width height delay hf hp ho
    obtain ⟨wk, fk, oldk, hrun, hfk, hpk, hok, hlen, hflag⟩ :=
      ih ⟨some (GifWriteLzwImage f
            (GifDeltaImage (if writer.firstFrame then none else some old) image old
              width height pal) 0 0 width height delay pal),
          some (GifDeltaImage (if writer.firstFrame then none else some old) image old
            width height pal), false, some pal⟩ _ _ rfl rfl rfl
    refine ⟨wk, fk, oldk, ?_, hfk, hpk, hok, ?_, fun _ => hflag (Or.inr rfl)⟩
    · simp only [writeFrames, h1]
      exact hrun
    · rw [hlen, GifDeltaImage_eq_deltaLoop _ _ _ _ _ _ hsz]
      exact deltaLoop_length _ _ _ _ _

/-! ## C2: an identical second frame is all transparent -/

/-- C2. On an open session whose previous-frame buffer holds `width * height`
pixels, two `GifWriteFrame8` calls in a row with the same pixel buffer and
dimensions both return true, and in the delta frame of the second call the fourth
channel of every pixel is `kGifTransIndex`. -/
theorem delta_of_identical_frame (writer : GifWriter) (f old : List Nat) (pal : GifPalette)
    (image : List Nat) (width height delay1 delay2 : Nat)
    (hf : writer.f = some f) (hp : writer.globalPal = some pal)
    (ho : writer.oldImage = some old)
    (hsz : width * height < 2 ^ 32) (hlen : 4 * (width * height) ≤ old.length) :
    ∃ writer1 writer2 delta,
      GifWriteFrame8 writer image width height delay1 = some (true, writer1) ∧
      GifWriteFrame8 writer1 image width height delay2 = some (true, writer2) ∧
      writer2.oldImage = some delta ∧
      ∀ i, i < width * height → delta.getD (4 * i + 3) 0 = kGifTransIndex := by
  have h1 := GifWriteFrame8_open writer f old pal image width height delay1 hf hp ho
  obtain ⟨stored, hst, hstlen, hrgb⟩ :=
    GifWriteFrame8_stored_rgb writer _ old pal image width height delay1 h1 hp ho hsz hlen
  have h2 := GifWriteFrame8_open _ _ stored pal image width height delay2 rfl rfl hst
  refine ⟨_, _, _, h1, h2, rfl, fun i hi => ?_⟩
  simp only [Bool.false_eq_true, if_false]
  have hpix := deltaLoop_pixel (some stored) image pal stored (width * height) i hi
    (by omega)
  rw [← GifDeltaImage_eq_deltaLoop _ _ _ _ _ _ hsz] at hpix
  obtain ⟨hr, hg, hb⟩ := hrgb i hi
  have h3 := congrArg (fun p => p.2.2.2) hpix
  simp only [pixelAt, deltaSpecPixel, hr, hg, hb, if_true] at h3
  exact h3

/-- C2, at a 2x1 session whose first two frames are both `[1, 2]`. -/
theorem delta_of_identical_frame_witness :
    (2 * 1 < 2 ^ 32 ∧ 4 * (2 * 1) ≤ [9, 9, 9, 9, 9, 9, 9, 9].length) ∧
    ∃ writer1 writer2 delta,
      GifWriteFrame8 ⟨some [], some [9, 9, 9, 9, 9, 9, 9, 9], true, some (greyPalette 2)⟩
        [1, 2] 2 1 5 = some (true, writer1) ∧
      GifWriteFrame8 writer1 [1, 2] 2 1 5 = some (true, writer2) ∧
      writer2.oldImage = some delta ∧
      ∀ i, i < 2 * 1 → delta.getD (4 * i + 3) 0 = kGifTransIndex :=
  ⟨⟨by decide, by decide⟩,
   delta_of_identical_frame
    ⟨some [], some [9, 9, 9, 9, 9, 9, 9, 9], true, some (greyPalette 2)⟩
    [] [9, 9, 9, 9, 9, 9, 9, 9] (greyPalette 2) [1, 2] 2 1 5 5 rfl rfl rfl
    (by decide) (by decide)⟩

/-! ## C3: the per-pixel rule of GifDeltaImage -/

/-- C3. For dimensions whose product fits `uint32_t` and an output buffer that holds
`width * height` pixels, every pixel `i < width * height` of the output of
`GifDeltaImage` is the palette colour of the input index with, as fourth channel,
0 when a previous frame is given and stores that colour at `i`, and the index
otherwise; exactly `width * height` pixels are written (the buffer keeps its
length and every byte from `4 * width * height` on), and the same holds when the
previous frame is the output buffer itself. -/
theorem GifDeltaImage_per_pixel (lastFrame : Option (List Nat))
    (nextFrame8 outFrame : List Nat) (width height : Nat) (pPal : GifPalette)
    (hsz : width * height < 2 ^ 32) (hout : 4 * (width * height) ≤ outFrame.length) :
    (∀ i, i < width * height →
      pixelAt (GifDeltaImage lastFrame nextFrame8 outFrame width height pPal) i
        = deltaSpecPixel lastFrame pPal (nextFrame8.getD i 0) i) ∧
    (GifDeltaImage lastFrame nextFrame8 outFrame width height pPal).length
      = outFrame.length ∧
    (∀ idx, 4 * (width * height) ≤ idx →
      (GifDeltaImage lastFrame nextFrame8 outFrame width height pPal).getD idx 0
        = outFrame.getD idx 0) ∧
    (∀ i, i < width * height →
      pixelAt (GifDeltaImageInPlace nextFrame8 outFrame width height pPal) i
        = deltaSpecPixel (some outFrame) pPal (nextFrame8.getD i 0) i) := by
  refine ⟨fun i hi => ?_, ?_, fun idx hidx => ?_, fun i hi => ?_⟩
  · rw [GifDeltaImage_eq_deltaLoop _ _ _ _ _ _ hsz]
    exact deltaLoop_pixel _ _ _ _ _ _ hi hout
  · rw [GifDeltaImage_eq_deltaLoop _ _ _ _ _ _ hsz]
    exact deltaLoop_length _ _ _ _ _
  · rw [GifDeltaImage_eq_deltaLoop _ _ _ _ _ _ hsz]
    exact deltaLoop_getD_ge _ _ _ _ _ _ hidx
  · rw [GifDeltaImageInPlace_eq, GifDeltaImage_eq_deltaLoop _ _ _ _ _ _ hsz]
    exact deltaLoop_pixel _ _ _ _ _ _ hi hout

/-- C3, at a 2x1 frame whose first pixel repeats the previous colour. -/
theorem GifDeltaImage_per_pixel_witness :
    (2 * 1 < 2 ^ 32 ∧ 4 * (2 * 1) ≤ [0, 0, 0, 0, 0, 0, 0, 0].length) ∧
    pixelAt (GifDeltaImage (some [1, 1, 1, 9, 5, 5, 5, 9]) [1, 2] [0, 0, 0, 0, 0, 0, 0, 0]
      2 1 (greyPalette 2)) 0 = (1, 1, 1, 0) ∧
    pixelAt (GifDeltaImage (some [1, 1, 1, 9, 5, 5, 5, 9]) [1, 2] [0, 0, 0, 0, 0, 0, 0, 0]
      2 1 (greyPalette 2)) 1 = (2, 2, 2, 2) :=
  ⟨⟨by decide, by decide⟩,
   (GifDeltaImage_per_pixel (some [1, 1, 1, 9, 5, 5, 5, 9]) [1, 2] [0, 0, 0, 0, 0, 0, 0, 0]
      2 1 (greyPalette 2) (by decide) (by decide)).1 0 (by decide),
   (GifDeltaImage_per_pixel (some [1, 1, 1, 9, 5, 5, 5, 9]) [1, 2] [0, 0, 0, 0, 0, 0, 0, 0]
      2 1 (greyPalette 2) (by decide) (by decide)).1 1 (by decide)⟩

/-! ## C4: the first-frame flag -/

/-- C4. After `GifBegin` on a file and a palette (dimensions with
`width * height * 4` in `uint32_t` range) the first-frame flag is set; the first
`GifWriteFrame8` call makes no delta comparison, so the index channel of its delta
frame is the input pixel buffer at every pixel, whatever the freshly allocated
previous-frame buffer held; and after one or more frames a further call compares
against the stored previous-frame buffer: its delta frame follows the per-pixel
rule with that buffer as previous frame. -/
theorem first_frame_flag (writer : GifWriter) (f0 : List Nat) (width height delay0 : Nat)
    (pal : GifPalette) (garbage : Nat → Nat) (hsz : width * height * 4 < 2 ^ 32) :
    ∃ w0, GifBegin writer (some f0) width height delay0 (some pal) garbage = some (true, w0) ∧
      w0.firstFrame = true ∧
      (∀ image delay, ∃ w1 delta,
        GifWriteFrame8 w0 image width height delay = some (true, w1) ∧
        w1.oldImage = some delta ∧
        ∀ i, i < width * height → delta.getD (4 * i + 3) 0 = image.getD i 0) ∧
      (∀ frames image delay, frames ≠ [] → ∃ wk old wk1 delta,
        writeFrames width height w0 frames = some wk ∧ wk.oldImage = some old ∧
        GifWriteFrame8 wk image width height delay = some (true, wk1) ∧
        wk1.oldImage = some delta ∧
        ∀ i, i < width * height →
          pixelAt delta i = deltaSpecPixel (some old) pal (image.getD i 0) i) := by
  obtain ⟨f, hbegin⟩ := GifBegin_open writer f0 width height delay0 pal garbage
  have hwh : width * height < 2 ^ 32 := by omega
  have hbuf : ((List.range ((width * height * 4) % 2 ^ 32)).map garbage).length
      = 4 * (width * height) := by
    rw [List.length_map, List.length_range, Nat.mod_eq_of_lt hsz]; omega
  refine ⟨_, hbegin, rfl, fun image delay => ?_, fun frames image delay hne => ?_⟩
  · refine ⟨_, _, GifWriteFrame8_open _ f _ pal image width height delay rfl rfl rfl, rfl,
      fun i hi => ?_⟩
    simp only [if_true]
    rw [GifDeltaImage_eq_deltaLoop _ _ _ _ _ _ hwh]
    have hpix := deltaLoop_pixel none image pal
      ((List.range ((width * height * 4) % 2 ^ 32)).map garbage) (width * height) i hi
      (by omega)
    exact congrArg (fun p => p.2.2.2) hpix
  · obtain ⟨wk, fk, oldk, hrun, hfk, hpk, hok, hlen, hflag⟩ :=
      writeFrames_open width height hwh pal frames
        ⟨some f, some ((List.range ((width * height * 4) % 2 ^ 32)).map garbage), true,
          some pal⟩ f _ rfl rfl rfl
    have hcall := GifWriteFrame8_open wk fk oldk pal image width height delay hfk hpk hok
    rw [hflag (Or.inl hne)] at hcall
    refine ⟨wk, oldk, _, _, hrun, hok, hcall, rfl, fun i hi => ?_⟩
    simp only [Bool.false_eq_true, if_false]
    rw [GifDeltaImage_eq_deltaLoop _ _ _ _ _ _ hwh]
    exact deltaLoop_pixel _ _ _ _ _ _ hi (by omega)

/-- C4, at a 2x1 session on an empty file. -/
theorem first_frame_flag_witness :
    2 * 1 * 4 < 2 ^ 32 ∧
    ∃ w0, GifBegin blankWriter (some []) 2 1 0 (some (greyPalette 2)) (fun _ => 9)
        = some (true, w0) ∧
      w0.firstFrame = true ∧
      (∀ image delay, ∃ w1 delta,
        GifWriteFrame8 w0 image 2 1 delay = some (true, w1) ∧
        w1.oldImage = some delta ∧
        ∀ i, i < 2 * 1 → delta.getD (4 * i + 3) 0 = image.getD i 0) ∧
      (∀ frames image delay, frames ≠ [] → ∃ wk old wk1 delta,
        writeFrames 2 1 w0 frames = some wk ∧ wk.oldImage = some old ∧
        GifWriteFrame8 wk image 2 1 delay = some (true, wk1) ∧
        wk1.oldImage = some delta ∧
        ∀ i, i < 2 * 1 →
          pixelAt delta i = deltaSpecPixel (some old) (greyPalette 2) (image.getD i 0) i) :=
  ⟨by decide, first_frame_flag blankWriter [] 2 1 0 (greyPalette 2) (fun _ => 9) (by decide)⟩

/-! ## C5: the stored previous frame after a call -/

/-- C5. After a `GifWriteFrame8` call that returns true on a session whose
previous-frame buffer holds `width * height` pixels, the R, G, B channels of the
stored previous-frame buffer at every pixel `i` are the palette colour of
`image[i]`. -/
theorem GifWriteFrame8_updates_previous (writer writer1 : GifWriter) (old : List Nat)
    (pal : GifPalette) (image : List Nat) (width height delay : Nat)
    (hcall : GifWriteFrame8 writer image width height delay = some (true, writer1))
    (hp : writer.globalPal = some pal) (ho : writer.oldImage = some old)
    (hsz : width * height < 2 ^ 32) (hlen : 4 * (width * height) ≤ old.length) :
    ∃ stored, writer1.oldImage = some stored ∧ stored.length = old.length ∧
      ∀ i, i < width * height →
        stored.getD (4 * i) 0 = pal.r (image.getD i 0) ∧
        stored.getD (4 * i + 1) 0 = pal.g (image.getD i 0) ∧
        stored.getD (4 * i + 2) 0 = pal.b (image.getD i 0) :=
  GifWriteFrame8_stored_rgb writer writer1 old pal image width height delay hcall hp ho hsz hlen

/-- C5, at the first frame of a 1x1 session. -/
theorem GifWriteFrame8_updates_previous_witness :
    (1 * 1 < 2 ^ 32 ∧ 4 * (1 * 1) ≤ [7, 7, 7, 7].length) ∧
    ∃ stored,
      (some (GifDeltaImage none [1] [7, 7, 7, 7] 1 1 (greyPalette 1)) : Option (List Nat))
        = some stored ∧ stored.length = [7, 7, 7, 7].length ∧
      ∀ i, i < 1 * 1 →
        stored.getD (4 * i) 0 = (greyPalette 1).r ([1].getD i 0) ∧
        stored.getD (4 * i + 1) 0 = (greyPalette 1).g ([1].getD i 0) ∧
        stored.getD (4 * i + 2) 0 = (greyPalette 1).b ([1].getD i 0) :=
  ⟨⟨by decide, by decide⟩,
   GifWriteFrame8_updates_previous
    ⟨some [], some [7, 7, 7, 7], true, some (greyPalette 1)⟩
    ⟨some (GifWriteLzwImage [] (GifDeltaImage none [1] [7, 7, 7, 7] 1 1 (greyPalette 1))
        0 0 1 1 0 (greyPalette 1)),
      some (GifDeltaImage none [1] [7, 7, 7, 7] 1 1 (greyPalette 1)), false,
      some (greyPalette 1)⟩
    [7, 7, 7, 7] (greyPalette 1) [1] 1 1 0 rfl rfl rfl (by decide) (by decide)⟩

/-! ## Lemmas on the bit writer -/

theorem bitsToByte_append_single (p : List Bool) (b : Bool) :
    bitsToByte (p ++ [b]) = bitsToByte p + b.toNat * 2 ^ p.length := by
  induction p with
  | nil => simp [bitsToByte]
  | cons a p ih =>
    simp only [bitsToByte, List.cons_append, List.foldr_cons, List.length_cons] at ih ⊢
    rw [ih, pow_succ]
    ring

theorem bitsToByte_lt (p : List Bool) : bitsToByte p < 2 ^ p.length := by
  induction p with
  | nil => simp [bitsToByte]
  | cons a p ih =>
    simp only [bitsToByte, List.foldr_cons, List.length_cons] at ih ⊢
    rw [pow_succ]
    cases a <;> simp <;> omega

theorem bitsToByte_append_zeros (p : List Bool) (k : Nat) :
    bitsToByte (p ++ List.replicate k false) = bitsToByte p := by
  induction p with
  | nil =>
    induction k with
    | zero => rfl
    | succ k ih =>
      simp only [bitsToByte, List.nil_append, List.replicate_succ, List.foldr_cons,
        List.foldr_nil] at ih ⊢
      rw [ih]; simp
  | cons a p ih =>
    simp only [bitsToByte, List.cons_append, List.foldr_cons] at ih ⊢
    rw [ih]

theorem codeBits_succ (code n : Nat) :
    codeBits code (n + 1) = code.testBit 0 :: codeBits (code >>> 1) n := by
  simp only [codeBits, List.range_succ_eq_map, List.map_cons, List.map_map]
  congr 1
  apply List.map_congr_left
  intro i _
  simp [Nat.testBit_shiftRight, Nat.add_comm]

theorem packBits_cons_group (g rest : List Bool) (hg : g.length = 8) :
    packBits (g ++ rest) = bitsToByte g :: packBits rest := by
  have hlen : ((g ++ rest).length + 7) / 8 = (rest.length + 7) / 8 + 1 := by
    rw [List.length_append, hg]; omega
  simp only [packBits, hlen, List.range_succ_eq_map, List.map_cons, List.map_map]
  congr 1
  · simp [hg]
  · apply List.map_congr_left
    intro j _
    simp only [Function.comp]
    have : 8 * (j + 1) = g.length + 8 * j := by omega
    rw [this, ← List.drop_drop, List.drop_left]

theorem packBits_groups (groups : List (List Bool)) (part : List Bool)
    (hg : ∀ g ∈ groups, g.length = 8) (hp : part.length < 8) :
    packBits (groups.flatten ++ part)
      = groups.map bitsToByte ++ (if part = [] then [] else [bitsToByte part]) := by
  induction groups with
  | nil =>
    cases part with
    | nil => simp [packBits]
    | cons a p =>
      have h1 : ((a :: p).length + 7) / 8 = 1 := by
        simp only [List.length_cons] at hp ⊢; omega
      have h2 : (a :: p).take 8 = a :: p := List.take_of_length_le (by omega)
      simp only [packBits, List.flatten_nil, List.nil_append, h1, List.map_nil]
      have h3 : List.range 1 = [0] := rfl
      rw [h3]
      simp only [List.map_cons, List.map_nil, Nat.mul_zero, List.drop_zero, h2]
      simp
  | cons g groups ih =>
    simp only [List.flatten_cons, List.append_assoc, List.map_cons, List.cons_append]
    rw [packBits_cons_group _ _ (hg g (List.mem_cons_self _ _)),
      ih (fun g' hg' => hg g' (List.mem_cons_of_mem _ hg'))]
theorem and_one_eq_toNat_testBit (bit : Nat) : bit &&& 1 = (bit.testBit 0).toNat := by
  rw [Nat.and_one_is_mod, Nat.testBit_zero]
  rcases Nat.mod_two_eq_zero_or_one bit with h | h <;> simp [h]

/-- The byte that `GifWriteBit` computes is the partial byte extended by the new bit. -/
theorem GifWriteBit_byte (part : List Bool) (bit : Nat) (hp : part.length < 8) :
    (bitsToByte part ||| ((bit &&& 1) <<< part.length) % 2 ^ 32) % 256
      = bitsToByte (part ++ [bit.testBit 0]) := by
  have hlt := bitsToByte_lt part
  have hv : (bit.testBit 0).toNat ≤ 1 := by cases bit.testBit 0 <;> simp
  have hpow : 2 ^ part.length * 2 ≤ 256 := by
    have : 2 ^ (part.length + 1) ≤ 2 ^ 8 := Nat.pow_le_pow_right (by decide) (by omega)
    rw [pow_succ] at this
    simpa using this
  have hmul : (bit.testBit 0).toNat * 2 ^ part.length ≤ 2 ^ part.length := by
    calc (bit.testBit 0).toNat * 2 ^ part.length ≤ 1 * 2 ^ part.length :=
          Nat.mul_le_mul_right _ hv
      _ = 2 ^ part.length := by simp
  have e1 : ((bit &&& 1) <<< part.length) % 2 ^ 32 = 2 ^ part.length * (bit.testBit 0).toNat := by
    rw [and_one_eq_toNat_testBit, Nat.shiftLeft_eq]
    have hsmall : (bit.testBit 0).toNat * 2 ^ part.length < 2 ^ 32 := by omega
    rw [Nat.mod_eq_of_lt hsmall, Nat.mul_comm]
  have hsum : bitsToByte part + (bit.testBit 0).toNat * 2 ^ part.length < 256 := by omega
  rw [e1, Nat.or_comm, ← Nat.mul_add_lt_is_or hlt, bitsToByte_append_single,
    Nat.mul_comm, Nat.add_comm, Nat.mod_eq_of_lt hsum]

theorem GifWriteBit_unfinished (stat : GifBitStatus) (part : List Bool) (bit : Nat)
    (hbi : stat.bitIndex = part.length) (hby : stat.byte = bitsToByte part)
    (hlt : part.length + 1 < 8) :
    GifWriteBit stat bit
      = { stat with bitIndex := part.length + 1,
                    byte := bitsToByte (part ++ [bit.testBit 0]) } := by
  have h1 : (part.length + 1) % 256 = part.length + 1 := Nat.mod_eq_of_lt (by omega)
  have h2 : ¬ part.length + 1 > 7 := by omega
  simp only [GifWriteBit, hbi, hby, h1, h2, if_false,
    GifWriteBit_byte part bit (by omega)]

theorem GifWriteBit_complete (stat : GifBitStatus) (part : List Bool) (bit : Nat)
    (hbi : stat.bitIndex = part.length) (hby : stat.byte = bitsToByte part)
    (hlen : part.length + 1 = 8) :
    GifWriteBit stat bit
      = { bitIndex := 0, byte := 0, chunkIndex := (stat.chunkIndex + 1) % 2 ^ 32,
          chunk := stat.chunk.set stat.chunkIndex (bitsToByte (part ++ [bit.testBit 0])) } := by
  have h1 : (part.length + 1) % 256 = part.length + 1 := Nat.mod_eq_of_lt (by omega)
  have h2 : part.length + 1 > 7 := by omega
  simp only [GifWriteBit, hbi, hby, h1, h2, if_true,
    GifWriteBit_byte part bit (by omega)]
theorem take_set_succ (l : List Nat) (n x : Nat) (h : n < l.length) :
    (l.set n x).take (n + 1) = l.take n ++ [x] := by
  rw [List.take_succ, List.getElem?_set_eq_of_lt _ h, List.set_take,
    List.set_eq_of_length_le (by simp)]
  rfl

theorem encodeBlocks_append (blocks : List (List Nat)) (c : List Nat) :
    encodeBlocks (blocks ++ [c]) = encodeBlocks blocks ++ c.length :: c := by
  simp [encodeBlocks]

theorem pushBit_flat (gp : List (List Bool) × List Bool) (b : Bool) :
    (pushBit gp b).1.flatten ++ (pushBit gp b).2 = gp.1.flatten ++ gp.2 ++ [b] := by
  unfold pushBit
  split <;> simp

/-- One iteration of the loop of `GifWriteCode` keeps the invariant and records
the low bit of the code. -/
theorem codeStep_inv (f0 : List Nat) (gp : List (List Bool) × List Bool) (f : List Nat)
    (stat : GifBitStatus) (bit : Nat) (h : BitInv f0 gp (f, stat)) :
    BitInv f0 (pushBit gp (bit.testBit 0))
      (if (GifWriteBit stat bit).chunkIndex = 255 then GifWriteChunk f (GifWriteBit stat bit)
       else (f, GifWriteBit stat bit)) := by
  obtain ⟨blocks, hf, hb, hg, hp, hcl, hci, hbi, hby, hbytes⟩ := h
  simp only at hf hcl hci hbi hby hbytes
  by_cases hlen : gp.2.length + 1 = 8
  · rw [GifWriteBit_complete stat gp.2 bit hbi hby hlen]
    have hmod : (stat.chunkIndex + 1) % 2 ^ 32 = stat.chunkIndex + 1 :=
      Nat.mod_eq_of_lt (by omega)
    have htake := take_set_succ stat.chunk stat.chunkIndex
      (bitsToByte (gp.2 ++ [bit.testBit 0])) (by omega)
    simp only [hmod, pushBit, hlen, if_true]
    have hg' : ∀ g ∈ gp.1 ++ [gp.2 ++ [bit.testBit 0]], g.length = 8 := by
      intro g hgm
      rcases List.mem_append.1 hgm with h1 | h1
      · exact hg g h1
      · simp only [List.mem_singleton] at h1
        subst h1
        simpa using hlen
    by_cases h255 : stat.chunkIndex + 1 = 255
    · simp only [h255, if_true, GifWriteChunk, fputc]
      rw [h255] at htake
      refine ⟨blocks ++ [(stat.chunk.set stat.chunkIndex
        (bitsToByte (gp.2 ++ [bit.testBit 0]))).take 255], ?_, ?_, hg', by simp, by simpa using hcl,
        by simp, by simp, by simp [bitsToByte], ?_⟩
      · simp only [encodeBlocks_append, hf, List.length_take, List.length_set, hcl]
        simp
      · intro b hbm
        rcases List.mem_append.1 hbm with h1 | h1
        · exact hb b h1
        · simp only [List.mem_singleton] at h1
          subst h1
          simp [hcl]
      · simp only [List.flatten_append, List.flatten_cons, List.flatten_nil, List.append_nil,
          List.take_zero, List.map_append, List.map_cons, List.map_nil, htake,
          ← List.append_assoc, hbytes]
    · simp only [h255, if_false]
      refine ⟨blocks, hf, hb, hg', by simp, by simpa using hcl, by simp only []; omega,
        by simp, by simp [bitsToByte], ?_⟩
      simp only [htake, List.map_append, List.map_cons, List.map_nil, ← List.append_assoc,
        hbytes]
  · have hlt : gp.2.length + 1 < 8 := by omega
    rw [GifWriteBit_unfinished stat gp.2 bit hbi hby hlt]
    have hne : stat.chunkIndex ≠ 255 := by omega
    simp only [hne, if_false, pushBit, hlen]
    exact ⟨blocks, hf, hb, hg, by simpa using hlt, hcl, hci, by simp, rfl, hbytes⟩

/-- The ghost state after a list of bits. -/
theorem pushBits_flat (bs : List Bool) (gp : List (List Bool) × List Bool) :
    (bs.foldl pushBit gp).1.flatten ++ (bs.foldl pushBit gp).2 = gp.1.flatten ++ gp.2 ++ bs := by
  induction bs generalizing gp with
  | nil => simp
  | cons b bs ih =>
    rw [List.foldl_cons, ih, pushBit_flat]
    simp

/-- A call of `GifWriteCode` keeps the invariant and records the low `length` bits
of the code, least significant first. -/
theorem GifWriteCode_inv (f0 : List Nat) (length : Nat) :
    ∀ (gp : List (List Bool) × List Bool) (fs : List Nat × GifBitStatus) (code : Nat),
      BitInv f0 gp fs →
      BitInv f0 ((codeBits code length).foldl pushBit gp) (GifWriteCode fs code length) := by
  induction length with
  | zero =>
    intro gp fs code h
    simpa [codeBits, GifWriteCode] using h
  | succ n ih =>
    intro gp fs code h
    obtain ⟨f, stat⟩ := fs
    have hstep := codeStep_inv f0 gp f stat code h
    rw [codeBits_succ, List.foldl_cons]
    simp only [GifWriteCode]
    split
    · rename_i h255
      rw [if_pos h255] at hstep
      exact ih _ _ _ hstep
    · rename_i h255
      rw [if_neg h255] at hstep
      exact ih _ _ _ hstep
/-- The padding loop leaves the loop condition false: for every byte-sized
`bitIndex`, eight iterations reach `bitIndex = 0`. -/
theorem padLoop_exits (stat : GifBitStatus) (h : stat.bitIndex < 256) :
    (padLoop 8 stat).bitIndex = 0 := by
  have step : ∀ (s : GifBitStatus), s.bitIndex < 256 →
      (GifWriteBit s 0).bitIndex = 0 ∨
      ((GifWriteBit s 0).bitIndex = s.bitIndex + 1 ∧ s.bitIndex + 1 ≤ 7) := by
    intro s hs
    simp only [GifWriteBit]
    split
    · exact Or.inl rfl
    · rename_i h7
      by_cases h255 : s.bitIndex = 255
      · simp [h255]
      · have : (s.bitIndex + 1) % 256 = s.bitIndex + 1 := Nat.mod_eq_of_lt (by omega)
        rw [this] at h7 ⊢
        exact Or.inr ⟨rfl, by omega⟩
  have main : ∀ (fuel : Nat) (s : GifBitStatus), s.bitIndex < 256 →
      (s.bitIndex = 0 ∨ (1 ≤ fuel ∧ 8 ≤ s.bitIndex + fuel)) →
      (padLoop fuel s).bitIndex = 0 := by
    intro fuel
    induction fuel with
    | zero =>
      intro s hs h0
      rcases h0 with h0 | h0
      · simpa [padLoop] using h0
      · omega
    | succ n ih =>
      intro s hs h0
      simp only [padLoop]
      split
      · rename_i hne
        rcases step s hs with h1 | ⟨h1, h2⟩
        · exact ih _ (by omega) (Or.inl h1)
        · exact ih _ (by omega) (Or.inr (by omega))
      · rename_i hz
        simpa using hz
  exact main 8 stat h (by omega)

/-- Under the invariant the padding loop completes the partial byte with zero
bits, and the flush makes the data a sequence of sub-blocks, all of 255 bytes
except possibly the last, whose payload is the packed bit string. -/
theorem flushLast_blocks (f0 : List Nat) (gp : List (List Bool) × List Bool)
    (fs : List Nat × GifBitStatus) (h : BitInv f0 gp fs) :
    ∃ blocks : List (List Nat),
      (flushLast fs).1 = f0 ++ encodeBlocks blocks ∧
      (∀ b ∈ blocks, 1 ≤ b.length ∧ b.length ≤ 255) ∧
      (∀ b ∈ blocks.dropLast, b.length = 255) ∧
      blocks.flatten = packBits (gp.1.flatten ++ gp.2) := by
  obtain ⟨f, stat⟩ := fs
  -- the state after the padding loop, again under the invariant but for `chunkIndex ≤ 255`
  have hpad : ∃ (groups : List (List Bool)) (blocks : List (List Nat)),
      f = f0 ++ encodeBlocks blocks ∧ (∀ b ∈ blocks, b.length = 255) ∧
      (padLoop 8 stat).chunk.length = 256 ∧ (padLoop 8 stat).chunkIndex ≤ 255 ∧
      blocks.flatten ++ (padLoop 8 stat).chunk.take (padLoop 8 stat).chunkIndex
        = groups.map bitsToByte ∧
      groups.map bitsToByte = packBits (gp.1.flatten ++ gp.2) := by
    have main : ∀ (fuel : Nat) (gp : List (List Bool) × List Bool) (stat : GifBitStatus),
        BitInv f0 gp (f, stat) → (gp.2 = [] ∨ 8 ≤ gp.2.length + fuel) →
        ∃ (groups : List (List Bool)) (blocks : List (List Nat)),
          f = f0 ++ encodeBlocks blocks ∧ (∀ b ∈ blocks, b.length = 255) ∧
          (padLoop fuel stat).chunk.length = 256 ∧ (padLoop fuel stat).chunkIndex ≤ 255 ∧
          blocks.flatten ++ (padLoop fuel stat).chunk.take (padLoop fuel stat).chunkIndex
            = groups.map bitsToByte ∧
          groups.map bitsToByte = packBits (gp.1.flatten ++ gp.2) := by
      intro fuel
      induction fuel with
      | zero =>
        intro gp stat hinv hcond
        obtain ⟨blocks, hf, hb, hg, hp, hcl, hci, hbi, hby, hbytes⟩ := hinv
        have hnil : gp.2 = [] := by
          rcases hcond with h0 | h0
          · exact h0
          · omega
        refine ⟨gp.1, blocks, hf, hb, hcl, Nat.le_of_lt hci, hbytes, ?_⟩
        rw [packBits_groups _ _ hg hp, hnil]
        simp
      | succ n ih =>
        intro gp stat hinv hcond
        obtain ⟨blocks, hf, hb, hg, hp, hcl, hci, hbi, hby, hbytes⟩ := hinv
        simp only at hf hcl hci hbi hby hbytes
        simp only [padLoop]
        by_cases hnil : gp.2 = []
        · have hz : stat.bitIndex = 0 := by rw [hbi, hnil]; rfl
          simp only [hz, ne_eq, not_true_eq_false, if_false]
          refine ⟨gp.1, blocks, hf, hb, hcl, Nat.le_of_lt hci, hbytes, ?_⟩
          rw [packBits_groups _ _ hg hp, hnil]
          simp
        · have hpos : 0 < gp.2.length := List.length_pos.2 hnil
          have hc : 8 ≤ gp.2.length + (n + 1) := by
            rcases hcond with h0 | h0
            · exact absurd h0 hnil
            · exact h0
          have hnz : stat.bitIndex ≠ 0 := by omega
          simp only [hnz, ne_eq, not_false_eq_true, if_true]
          by_cases hlen : gp.2.length + 1 = 8
          · -- the byte completes: the loop stops after this iteration
            rw [GifWriteBit_complete stat gp.2 0 hbi hby hlen]
            have hmod : (stat.chunkIndex + 1) % 2 ^ 32 = stat.chunkIndex + 1 :=
              Nat.mod_eq_of_lt (by omega)
            have hstop : ∀ (m : Nat) (s : GifBitStatus), s.bitIndex = 0 → padLoop m s = s := by
              intro m s hs
              cases m with
              | zero => rfl
              | succ m => simp [padLoop, hs]
            rw [hstop n _ rfl]
            have htake := take_set_succ stat.chunk stat.chunkIndex
              (bitsToByte (gp.2 ++ [Nat.testBit 0 0])) (by omega)
            refine ⟨gp.1 ++ [gp.2 ++ [Nat.testBit 0 0]], blocks, hf, hb, by simpa using hcl,
              by simp only [hmod]; omega, ?_, ?_⟩
            · simp only [hmod, htake, List.map_append, List.map_cons, List.map_nil,
                ← List.append_assoc, hbytes]
            · rw [packBits_groups _ _ hg hp, if_neg hnil]
              have hz : [Nat.testBit 0 0] = List.replicate 1 false := by simp
              rw [List.map_append, hz, List.map_cons, List.map_nil, bitsToByte_append_zeros]
          · have hlt : gp.2.length + 1 < 8 := by omega
            have hinv' : BitInv f0 (gp.1, gp.2 ++ [Nat.testBit 0 0])
                (f, GifWriteBit stat 0) := by
              rw [GifWriteBit_unfinished stat gp.2 0 hbi hby hlt]
              exact ⟨blocks, hf, hb, hg, by simpa using hlt, hcl, hci, by simp, rfl, hbytes⟩
            obtain ⟨groups, blocks2, h1, h2, h3, h4, h5, h6⟩ :=
              ih (gp.1, gp.2 ++ [Nat.testBit 0 0]) _ hinv'
                (Or.inr (by simp only [List.length_append, List.length_singleton]; omega))
            refine ⟨groups, blocks2, h1, h2, h3, h4, h5, ?_⟩
            rw [h6, packBits_groups _ _ hg (by simpa using hlt), packBits_groups _ _ hg hp,
              if_neg hnil, if_neg (by simp)]
            have hz : [Nat.testBit 0 0] = List.replicate 1 false := by simp
            simp only [hz, bitsToByte_append_zeros]
    have hp8 : gp.2 = [] ∨ 8 ≤ gp.2.length + 8 := Or.inr (by omega)
    exact main 8 gp stat h hp8
  obtain ⟨groups, blocks, hf, hb, hcl, hci, hbytes, hpack⟩ := hpad
  simp only [flushLast]
  by_cases hz : (padLoop 8 stat).chunkIndex = 0
  · simp only [hz, ne_eq, not_true_eq_false, if_false]
    rw [hz] at hbytes
    refine ⟨blocks, hf, fun b hbm => by rw [hb b hbm]; omega,
      fun b hbm => hb b (List.dropLast_subset _ hbm), ?_⟩
    rw [← hpack, ← hbytes]
    simp
  · simp only [hz, ne_eq, not_false_eq_true, if_true, GifWriteChunk, fputc]
    have hlast : ((padLoop 8 stat).chunk.take (padLoop 8 stat).chunkIndex).length
        = (padLoop 8 stat).chunkIndex := by
      rw [List.length_take, hcl]; omega
    refine ⟨blocks ++ [(padLoop 8 stat).chunk.take (padLoop 8 stat).chunkIndex], ?_, ?_, ?_, ?_⟩
    · rw [encodeBlocks_append, hlast, hf, Nat.mod_eq_of_lt (by omega)]
      simp
    · intro b hbm
      rcases List.mem_append.1 hbm with h1 | h1
      · rw [hb b h1]; omega
      · simp only [List.mem_singleton] at h1
        subst h1
        rw [hlast]; omega
    · intro b hbm
      rw [List.dropLast_concat] at hbm
      exact hb b hbm
    · rw [← hpack, ← hbytes]
      simp
theorem BitInv_fresh (f0 chunk : List Nat) (hchunk : chunk.length = 256) :
    BitInv f0 ([], []) (f0, freshStatus chunk) :=
  ⟨[], by simp [encodeBlocks], by simp, by simp, by simp, hchunk, by simp [freshStatus],
    rfl, rfl, by simp [freshStatus]⟩

theorem writeCodes_inv (f0 : List Nat) (codes : List (Nat × Nat)) :
    ∀ (gp : List (List Bool) × List Bool) (fs : List Nat × GifBitStatus),
      BitInv f0 gp fs →
      BitInv f0 ((codes.flatMap fun c => codeBits c.1 c.2).foldl pushBit gp)
        (writeCodes fs codes) := by
  induction codes with
  | nil => intro gp fs h; simpa [writeCodes] using h
  | cons c codes ih =>
    intro gp fs h
    simp only [writeCodes, List.foldl_cons, List.flatMap_cons, List.foldl_append]
    exact ih _ _ (GifWriteCode_inv f0 c.2 gp fs c.1 h)

theorem length_flatMap_codeBits (codes : List (Nat × Nat)) :
    (codes.flatMap fun c => codeBits c.1 c.2).length = (codes.map Prod.snd).sum := by
  induction codes with
  | nil => rfl
  | cons c codes ih =>
    rw [List.flatMap_cons, List.length_append, ih]
    simp [codeBits]

/-! ## C6: bit packing -/

/-- C6. For every sequence of `(code, width)` pairs written through `GifWriteCode`
from a fresh `GifBitStatus` (any content of the 256-byte chunk buffer) and
followed by the end-of-frame padding and flush, what has been appended to the
file is a sequence of sub-blocks of 1 to 255 payload bytes whose concatenated
payload is the bit string of the low `width` bits of each code, least significant
first, packed LSB-first into bytes and zero-padded: `ceil (total bits / 8)`
bytes. -/
theorem bit_packing_lossless (f0 chunk : List Nat) (hchunk : chunk.length = 256)
    (codes : List (Nat × Nat)) :
    ∃ blocks : List (List Nat),
      (flushLast (writeCodes (f0, freshStatus chunk) codes)).1 = f0 ++ encodeBlocks blocks ∧
      (∀ b ∈ blocks, 1 ≤ b.length ∧ b.length ≤ 255) ∧
      blocks.flatten = packBits (codes.flatMap fun c => codeBits c.1 c.2) ∧
      blocks.flatten.length = ((codes.map Prod.snd).sum + 7) / 8 := by
  have hinv := writeCodes_inv f0 codes _ _ (BitInv_fresh f0 chunk hchunk)
  obtain ⟨blocks, h1, h2, _, h4⟩ := flushLast_blocks f0 _ _ hinv
  rw [pushBits_flat] at h4
  simp only [List.flatten_nil, List.append_nil, List.nil_append] at h4
  refine ⟨blocks, h1, h2, h4, ?_⟩
  rw [h4, packBits, List.length_map, List.length_range, length_flatMap_codeBits]

/-- C6, at the three codes 4, 1, 5 of three bits each. -/
theorem bit_packing_lossless_witness :
    (List.replicate 256 7).length = 256 ∧
    ∃ blocks : List (List Nat),
      (flushLast (writeCodes ([], freshStatus (List.replicate 256 7))
        [(4, 3), (1, 3), (5, 3)])).1 = [] ++ encodeBlocks blocks ∧
      (∀ b ∈ blocks, 1 ≤ b.length ∧ b.length ≤ 255) ∧
      blocks.flatten
        = packBits ([(4, 3), (1, 3), (5, 3)].flatMap fun c => codeBits c.1 c.2) ∧
      blocks.flatten.length = (([(4, 3), (1, 3), (5, 3)].map Prod.snd).sum + 7) / 8 :=
  ⟨List.length_replicate _ _,
   bit_packing_lossless [] (List.replicate 256 7) (List.length_replicate _ _)
    [(4, 3), (1, 3), (5, 3)]⟩

/-! ## C7: sub-block structure of a frame -/

theorem lzwStep_inv (f0 : List Nat) (minCodeSize clearCode : Nat) (s : LzwState)
    (nextValue : Nat) (h : ∃ gp, BitInv f0 gp (s.f, s.stat)) :
    ∃ gp, BitInv f0 gp ((lzwStep minCodeSize clearCode s nextValue).f,
      (lzwStep minCodeSize clearCode s nextValue).stat) := by
  obtain ⟨gp, hinv⟩ := h
  unfold lzwStep
  split
  · exact ⟨gp, hinv⟩
  · split
    · exact ⟨gp, hinv⟩
    · have h1 := GifWriteCode_inv f0 s.codeSize gp _ (toU32 s.curCode) hinv
      simp only []
      split
      · exact ⟨_, GifWriteCode_inv f0 _ _ _ clearCode h1⟩
      · exact ⟨_, h1⟩

theorem lzwLoop_inv (f0 : List Nat) (minCodeSize clearCode : Nat) (pixels : List Nat) :
    ∀ (s : LzwState), (∃ gp, BitInv f0 gp (s.f, s.stat)) →
      ∃ gp, BitInv f0 gp ((pixels.foldl (lzwStep minCodeSize clearCode) s).f,
        (pixels.foldl (lzwStep minCodeSize clearCode) s).stat) := by
  induction pixels with
  | nil => intro s h; exact h
  | cons p pixels ih =>
    intro s h
    exact ih _ (lzwStep_inv f0 minCodeSize clearCode s p h)

theorem lzwFinish_blocks (f0 : List Nat) (minCodeSize clearCode : Nat) (s : LzwState)
    (h : ∃ gp, BitInv f0 gp (s.f, s.stat)) :
    ∃ blocks : List (List Nat),
      (lzwFinish minCodeSize clearCode s).1 = f0 ++ encodeBlocks blocks ∧
      (∀ b ∈ blocks, 1 ≤ b.length ∧ b.length ≤ 255) ∧
      (∀ b ∈ blocks.dropLast, b.length = 255) := by
  obtain ⟨gp, hinv⟩ := h
  have h1 := GifWriteCode_inv f0 s.codeSize gp (s.f, s.stat) (toU32 s.curCode) hinv
  have h2 := GifWriteCode_inv f0 s.codeSize _ _ clearCode h1
  have h3 := GifWriteCode_inv f0 (minCodeSize + 1) _ _ ((clearCode + 1) % 2 ^ 32) h2
  obtain ⟨blocks, hb1, hb2, hb3, _⟩ := flushLast_blocks f0 _ _ h3
  exact ⟨blocks, hb1, hb2, hb3⟩

theorem lzwInit_inv (f0 : List Nat) (pPal : GifPalette) :
    ∃ gp, BitInv f0 gp ((lzwInit f0 pPal).f, (lzwInit f0 pPal).stat) :=
  ⟨_, GifWriteCode_inv f0 (pPal.bitDepth + 1) ([], []) (f0, freshStatus (List.replicate 256 0))
    ((1 <<< pPal.bitDepth) % 2 ^ 32) (BitInv_fresh f0 _ (List.length_replicate _ _))⟩

/-- The sub-block structure of the output of `GifWriteLzwImage`. -/
theorem sub_block_frame (f image : List Nat) (left top width height delay : Nat)
    (pPal : GifPalette) :
    ∃ blocks : List (List Nat),
      GifWriteLzwImage f image left top width height delay pPal
        = lzwHeader f left top width height delay pPal ++ encodeBlocks blocks ++ [0] ∧
      (∀ b ∈ blocks, 1 ≤ b.length ∧ b.length ≤ 255) ∧
      (∀ b ∈ blocks.dropLast, b.length = 255) := by
  obtain ⟨blocks, hb1, hb2, hb3⟩ :=
    lzwFinish_blocks (lzwHeader f left top width height delay pPal) pPal.bitDepth
      ((1 <<< pPal.bitDepth) % 2 ^ 32) _
      (lzwLoop_inv _ pPal.bitDepth ((1 <<< pPal.bitDepth) % 2 ^ 32)
        (lzwPixels image width height) _ (lzwInit_inv _ pPal))
  refine ⟨blocks, ?_, hb2, hb3⟩
  simp only [GifWriteLzwImage, fputc]
  rw [hb1]

/-- C7. For every frame, what `GifWriteLzwImage` writes after the fixed fields
ending with the minimum-code-size byte is a sequence of sub-blocks, each a length
byte between 1 and 255 followed by that many payload bytes, every sub-block but
the last of length 255, followed by a single 0 byte. -/
theorem sub_block_structure (f image : List Nat) (left top width height delay : Nat)
    (pPal : GifPalette) :
    ∃ blocks : List (List Nat),
      GifWriteLzwImage f image left top width height delay pPal
        = lzwHeader f left top width height delay pPal ++ encodeBlocks blocks ++ [0] ∧
      (∀ b ∈ blocks, 1 ≤ b.length ∧ b.length ≤ 255) ∧
      (∀ b ∈ blocks.dropLast, b.length = 255) :=
  sub_block_frame f image left top width height delay pPal

/-! ## Lemmas on the fixed fields -/

theorem fputc_low (x : Nat) (f : List Nat) : fputc (x &&& 0xff) f = f ++ [x % 256] := by
  have h : x &&& 0xff = x % 256 := Nat.and_pow_two_sub_one_eq_mod x 8
  simp [fputc, h]

theorem fputc_high (x : Nat) (f : List Nat) :
    fputc ((x >>> 8) &&& 0xff) f = f ++ [x / 256 % 256] := by
  rw [fputc_low, Nat.shiftRight_eq_div_pow]

theorem fputc_u16le (x : Nat) (f : List Nat) :
    fputc ((x >>> 8) &&& 0xff) (fputc (x &&& 0xff) f) = f ++ u16le x := by
  rw [fputc_high, fputc_low]
  simp [u16le]

theorem greyPalette_bytes (d : Nat) : paletteBytes (greyPalette d) :=
  fun i _ => ⟨Nat.mod_lt _ (by decide), Nat.mod_lt _ (by decide), Nat.mod_lt _ (by decide)⟩

theorem GifWritePalette_eq (pal : GifPalette) (f : List Nat) (hb : paletteBytes pal)
    (hd : pal.bitDepth ≤ 8) :
    GifWritePalette pal f = f ++ colorTable pal := by
  have hloop : ∀ (n s : Nat) (f : List Nat), s + n ≤ 256 →
      (List.range' s n).foldl
        (fun f ii => fputc (pal.b ii) (fputc (pal.g ii) (fputc (pal.r ii) f))) f
        = f ++ (List.range' s n).flatMap fun i => [pal.r i, pal.g i, pal.b i] := by
    intro n
    induction n with
    | zero => intro s f _; simp
    | succ n ih =>
      intro s f hs
      have hbs := hb s (by omega)
      rw [List.range'_succ, List.foldl_cons, ih _ _ (by omega), List.flatMap_cons]
      simp only [fputc, Nat.mod_eq_of_lt hbs.1, Nat.mod_eq_of_lt hbs.2.1,
        Nat.mod_eq_of_lt hbs.2.2]
      simp
  have hpow : 2 ^ pal.bitDepth ≤ 2 ^ 8 := Nat.pow_le_pow_right (by decide) hd
  have hpos : 0 < 2 ^ pal.bitDepth := Nat.pow_pos (by decide)
  simp only [GifWritePalette, colorTable, Nat.shiftLeft_eq, Nat.one_mul]
  rw [hloop _ _ _ (by omega)]
  simp [fputc]

theorem colorTable_length (pal : GifPalette) :
    (colorTable pal).length = 3 * 2 ^ pal.bitDepth := by
  have h : ∀ (n s : Nat),
      ((List.range' s n).flatMap fun i => [pal.r i, pal.g i, pal.b i]).length = 3 * n := by
    intro n
    induction n with
    | zero => intro s; simp
    | succ n ih =>
      intro s
      rw [List.range'_succ, List.flatMap_cons, List.length_append, ih]
      simp only [List.length_cons, List.length_nil]
      omega
  have hpos : 0 < 2 ^ pal.bitDepth := Nat.pow_pos (by decide)
  rw [colorTable, List.length_append, h]
  simp only [List.length_cons, List.length_nil]
  omega
theorem beginFlags_eq (bd : Nat) (h1 : 1 ≤ bd) (h8 : bd ≤ 8) :
    ((0xf0 + ((bd : Int) - 1)) % 256).toNat = 0xF0 + (bd - 1) := by
  have h : (0xf0 + ((bd : Int) - 1)) % 256 = ((0xF0 + (bd - 1) : Nat) : Int) := by omega
  rw [h, Int.toNat_ofNat]

theorem lzwHeader_eq (f : List Nat) (left top width height delay : Nat) (pPal : GifPalette)
    (hd : pPal.bitDepth < 256) :
    lzwHeader f left top width height delay pPal
      = f ++ frameHeader left top width height delay pPal.bitDepth := by
  simp only [lzwHeader, fputc_u16le, frameHeader, kGifTransIndex]
  simp [fputc, Nat.mod_eq_of_lt hd]

/-! ## C8: the header written by GifBegin -/

/-- C8. For a non-null file and a palette of bit depth 1 to 8 with byte entries,
`GifBegin` returns true and appends to the file exactly: the six bytes "GIF89a",
width and height as little-endian 16-bit values (their low 16 bits), the flags
byte `0xF0 + (bitDepth - 1)` (top bit set, the next three bits set, the low three
bits `bitDepth - 1`), two 0 bytes, the colour table of `3 * 2 ^ bitDepth`
bytes, and the 19-byte looping extension exactly when `delay ≠ 0`. -/
theorem GifBegin_header (writer : GifWriter) (f0 : List Nat) (width height delay : Nat)
    (pal : GifPalette) (garbage : Nat → Nat)
    (h1 : 1 ≤ pal.bitDepth) (h8 : pal.bitDepth ≤ 8) (hb : paletteBytes pal) :
    (∃ w0, GifBegin writer (some f0) width height delay (some pal) garbage = some (true, w0) ∧
      w0.f = some (f0 ++ [71, 73, 70, 56, 57, 97] ++ u16le width ++ u16le height ++
        [0xF0 + (pal.bitDepth - 1), 0, 0] ++ colorTable pal ++
        (if delay ≠ 0 then
          [0x21, 0xFF, 11, 78, 69, 84, 83, 67, 65, 80, 69, 50, 46, 48, 3, 1, 0, 0, 0]
        else []))) ∧
    "GIF89a".toList.map Char.toNat = [71, 73, 70, 56, 57, 97] ∧
    "NETSCAPE2.0".toList.map Char.toNat = [78, 69, 84, 83, 67, 65, 80, 69, 50, 46, 48] ∧
    (colorTable pal).length = 3 * 2 ^ pal.bitDepth ∧
    (0xF0 + (pal.bitDepth - 1)) / 128 = 1 ∧ (0xF0 + (pal.bitDepth - 1)) / 16 % 8 = 7 ∧
    (0xF0 + (pal.bitDepth - 1)) % 8 = pal.bitDepth - 1 := by
  refine ⟨⟨_, rfl, ?_⟩, by decide, by decide, colorTable_length pal, by omega, by omega,
    by omega⟩
  have hflag : (0xF0 + (pal.bitDepth - 1)) % 256 = 0xF0 + (pal.bitDepth - 1) :=
    Nat.mod_eq_of_lt (by omega)
  simp only [fputc_u16le, beginFlags_eq pal.bitDepth h1 h8, GifWritePalette_eq _ _ hb h8]
  by_cases hdel : delay = 0
  · simp [hdel, fputc, fputs, hflag]
  · simp [hdel, fputc, fputs, hflag]

/-- C8, at a 3x1 session with a four-entry palette and delay 5. -/
theorem GifBegin_header_witness :
    (1 ≤ (greyPalette 2).bitDepth ∧ (greyPalette 2).bitDepth ≤ 8 ∧
      paletteBytes (greyPalette 2)) ∧
    (∃ w0, GifBegin blankWriter (some []) 3 1 5 (some (greyPalette 2)) (fun _ => 0)
        = some (true, w0) ∧
      w0.f = some ([] ++ [71, 73, 70, 56, 57, 97] ++ u16le 3 ++ u16le 1 ++
        [0xF0 + ((greyPalette 2).bitDepth - 1), 0, 0] ++ colorTable (greyPalette 2) ++
        (if 5 ≠ 0 then
          [0x21, 0xFF, 11, 78, 69, 84, 83, 67, 65, 80, 69, 50, 46, 48, 3, 1, 0, 0, 0]
        else []))) :=
  ⟨⟨by decide, by decide, greyPalette_bytes 2⟩,
   (GifBegin_header blankWriter [] 3 1 5 (greyPalette 2) (fun _ => 0) (by decide) (by decide)
    (greyPalette_bytes 2)).1⟩

/-! ## C9: the global colour table -/

/-- C9. For a palette of bit depth at most 8 (1 to 8 included) with byte entries,
`GifWritePalette` appends exactly `3 * 2 ^ bitDepth` bytes: `(0, 0, 0)` for index
0, whatever the palette holds there, then `(r[i], g[i], b[i])` for `i` from 1 to
`2 ^ bitDepth - 1` in increasing order. -/
theorem GifWritePalette_table (pal : GifPalette) (f : List Nat)
    (h8 : pal.bitDepth ≤ 8) (hb : paletteBytes pal) :
    GifWritePalette pal f
      = f ++ ([0, 0, 0] ++ (List.range' 1 (2 ^ pal.bitDepth - 1)).flatMap fun i =>
          [pal.r i, pal.g i, pal.b i]) ∧
    ([0, 0, 0] ++ (List.range' 1 (2 ^ pal.bitDepth - 1)).flatMap fun i =>
          [pal.r i, pal.g i, pal.b i]).length = 3 * 2 ^ pal.bitDepth ∧
    (GifWritePalette pal f).length = f.length + 3 * 2 ^ pal.bitDepth := by
  have heq := GifWritePalette_eq pal f hb h8
  have hlen := colorTable_length pal
  refine ⟨heq, hlen, ?_⟩
  rw [heq, List.length_append, hlen]

/-- C9, at a four-entry palette whose entry 0 is not black. -/
theorem GifWritePalette_table_witness :
    (2 ≤ 8 ∧ paletteBytes ⟨2, fun i => (i + 9) % 256, fun _ => 7, fun i => i % 256⟩) ∧
    GifWritePalette ⟨2, fun i => (i + 9) % 256, fun _ => 7, fun i => i % 256⟩ []
      = [0, 0, 0, 10, 7, 1, 11, 7, 2, 12, 7, 3] :=
  ⟨⟨by decide,
      fun i _ => ⟨Nat.mod_lt _ (by decide), (by show 7 < 256; decide), Nat.mod_lt _ (by decide)⟩⟩,
   (GifWritePalette_table ⟨2, fun i => (i + 9) % 256, fun _ => 7, fun i => i % 256⟩ []
      (by decide)
      (fun i _ => ⟨Nat.mod_lt _ (by decide), (by show 7 < 256; decide), Nat.mod_lt _ (by decide)⟩)).1⟩

/-! ## C10: the fixed fields of a frame -/

/-- C10. For a palette of bit depth 1 to 8, `GifWriteLzwImage` appends to the file,
before the data sub-blocks, exactly the 19 bytes 0x21, 0xF9, 0x04, 0x05, the delay
as a little-endian 16-bit value, the transparent index 0, 0, 0x2C, left, top,
width and height as little-endian 16-bit values, 0, and the palette's bit depth
as minimum code size; and on an open session `GifWriteFrame8` returns true and
leaves in the file the output of `GifWriteLzwImage` for its delta frame with
`left = top = 0`. -/
theorem frame_header_layout (f image : List Nat) (left top width height delay : Nat)
    (pPal : GifPalette) (writer : GifWriter) (old : List Nat)
    (h1 : 1 ≤ pPal.bitDepth) (h8 : pPal.bitDepth ≤ 8)
    (hf : writer.f = some f) (hp : writer.globalPal = some pPal)
    (ho : writer.oldImage = some old) :
    (∃ blocks : List (List Nat),
      GifWriteLzwImage f image left top width height delay pPal
        = f ++ ([0x21, 0xF9, 0x04, 0x05] ++ u16le delay ++ [kGifTransIndex, 0, 0x2C] ++
            u16le left ++ u16le top ++ u16le width ++ u16le height ++ [0, pPal.bitDepth])
          ++ encodeBlocks blocks ++ [0]) ∧
    ([0x21, 0xF9, 0x04, 0x05] ++ u16le delay ++ [kGifTransIndex, 0, 0x2C] ++
      u16le left ++ u16le top ++ u16le width ++ u16le height ++ [0, pPal.bitDepth]).length
        = 19 ∧
    (∃ writer1 delta,
      GifWriteFrame8 writer image width height delay = some (true, writer1) ∧
      writer1.oldImage = some delta ∧
      writer1.f = some (GifWriteLzwImage f delta 0 0 width height delay pPal)) := by
  refine ⟨?_, by simp [u16le], ?_⟩
  · obtain ⟨blocks, hb, _, _⟩ := sub_block_frame f image left top width height delay pPal
    refine ⟨blocks, ?_⟩
    rw [hb, lzwHeader_eq _ _ _ _ _ _ _ (by omega)]
    rfl
  · exact ⟨_, _, GifWriteFrame8_open writer f old pPal image width height delay hf hp ho,
      rfl, rfl⟩

/-- C10, at the first frame of a 3x1 session with delay 258. -/
theorem frame_header_layout_witness :
    (1 ≤ (greyPalette 2).bitDepth ∧ (greyPalette 2).bitDepth ≤ 8) ∧
    (∃ blocks : List (List Nat),
      GifWriteLzwImage [] [0, 0, 0, 1, 0, 0, 0, 2, 0, 0, 0, 3] 7 9 3 1 258 (greyPalette 2)
        = [] ++ ([0x21, 0xF9, 0x04, 0x05] ++ u16le 258 ++ [kGifTransIndex, 0, 0x2C] ++
            u16le 7 ++ u16le 9 ++ u16le 3 ++ u16le 1 ++ [0, (greyPalette 2).bitDepth])
          ++ encodeBlocks blocks ++ [0]) :=
  ⟨⟨by decide, by decide⟩,
   (frame_header_layout [] [0, 0, 0, 1, 0, 0, 0, 2, 0, 0, 0, 3] 7 9 3 1 258 (greyPalette 2)
      ⟨some [], some [0, 0, 0, 0], true, some (greyPalette 2)⟩ [0, 0, 0, 0]
      (by decide) (by decide) rfl rfl rfl).1⟩

/-! ## C1: round trip of a single frame -/

/-- The reference decoder recovers a first frame whose last data code does not
fall on a width boundary: the four pixels 1, 2, 3, 1 at bit depth 2. -/
theorem decodeFrameData_example :
    (firstFrameData (greyPalette 2) [1, 2, 3, 1] 4 1 0).bind decodeFrameData
      = some [1, 2, 3, 1] := by
  decide

/-- C1 fails at the 3x1 first frame 1, 2, 3 with a four-entry palette: the frame
data is the minimum code size 2, one sub-block `140, 198, 2` and the terminator;
the encoder has written the codes 4, 1, 2, 3, 4, 5 at three bits each, whereas
after the third data code `clearCode + 1 + 3 = 2 ^ 3`, so the decoder reads the
next code at four bits, finds the undefined code 12 where the clear code was
meant, and never reaches the end code. -/
theorem round_trip_fails_at_width_boundary :
    firstFrameData (greyPalette 2) [1, 2, 3] 3 1 0 = some [2, 3, 140, 198, 2, 0] ∧
    readCodes [3, 3, 3, 3, 3, 3] (bytesToBits [140, 198, 2]) = [4, 1, 2, 3, 4, 5] ∧
    readCodes [3, 3, 3, 3, 4] (bytesToBits [140, 198, 2]) = [4, 1, 2, 3, 12] ∧
    decodeFrameData [2, 3, 140, 198, 2, 0] = none ∧
    (firstFrameData (greyPalette 2) [1, 2, 3] 3 1 0).bind decodeFrameData
      ≠ some [1, 2, 3] := by
  decide

/-! ## The compressor as control machine and writes -/

theorem writeCodes_append (fs : List Nat × GifBitStatus) (a b : List (Nat × Nat)) :
    writeCodes fs (a ++ b) = writeCodes (writeCodes fs a) b := by
  simp [writeCodes, List.foldl_append]

/-- The body of the pixel loop is the control step followed by the writes. -/
theorem lzwStep_ctl (m cl : Nat) (s : LzwState) (v : Nat) :
    ctlOf (lzwStep m cl s v) = (ctlStep m cl (ctlOf s) v).1 ∧
    ((lzwStep m cl s v).f, (lzwStep m cl s v).stat)
      = writeCodes (s.f, s.stat) ((ctlStep m cl (ctlOf s) v).2.map (LzwOut.pair cl)) := by
  unfold lzwStep ctlStep
  simp only [ctlOf]
  split
  · exact ⟨rfl, rfl⟩
  · split
    · exact ⟨rfl, rfl⟩
    · split
      · exact ⟨rfl, rfl⟩
      · exact ⟨rfl, rfl⟩

/-- The pixel loop is the control run followed by the writes. -/
theorem lzwLoop_ctl (m cl : Nat) (pixels : List Nat) :
    ∀ (s : LzwState),
      ctlOf (pixels.foldl (lzwStep m cl) s) = (ctlRun m cl (ctlOf s) pixels).1 ∧
      ((pixels.foldl (lzwStep m cl) s).f, (pixels.foldl (lzwStep m cl) s).stat)
        = writeCodes (s.f, s.stat) ((ctlRun m cl (ctlOf s) pixels).2.map (LzwOut.pair cl)) := by
  induction pixels with
  | nil => intro s; exact ⟨rfl, rfl⟩
  | cons v vs ih =>
    intro s
    obtain ⟨h1, h2⟩ := lzwStep_ctl m cl s v
    obtain ⟨h3, h4⟩ := ih (lzwStep m cl s v)
    simp only [List.foldl_cons, ctlRun, List.map_append, writeCodes_append]
    rw [h3, h4, h1, h2]
    exact ⟨rfl, rfl⟩

/-- `GifWriteLzwImage` writes the fixed fields, then the codes of `frameCodes`
through `GifWriteCode` from a fresh `GifBitStatus`, then the last chunk and the
terminator. -/
theorem GifWriteLzwImage_codes (f image : List Nat) (left top width height delay : Nat)
    (pPal : GifPalette) :
    GifWriteLzwImage f image left top width height delay pPal
      = fputc 0 (flushLast (writeCodes
          (lzwHeader f left top width height delay pPal, freshStatus (List.replicate 256 0))
          ((frameCodes pPal (lzwPixels image width height)).map
            (LzwOut.pair ((1 <<< pPal.bitDepth) % 2 ^ 32))))).1 := by
  obtain ⟨h1, h2⟩ := lzwLoop_ctl pPal.bitDepth ((1 <<< pPal.bitDepth) % 2 ^ 32)
    (lzwPixels image width height) (lzwInit (lzwHeader f left top width height delay pPal) pPal)
  have hinit : ctlOf (lzwInit (lzwHeader f left top width height delay pPal) pPal)
      = ctlInit pPal := rfl
  have hout : ((lzwInit (lzwHeader f left top width height delay pPal) pPal).f,
      (lzwInit (lzwHeader f left top width height delay pPal) pPal).stat)
      = writeCodes
          (lzwHeader f left top width height delay pPal, freshStatus (List.replicate 256 0))
          [((1 <<< pPal.bitDepth) % 2 ^ 32, pPal.bitDepth + 1)] := rfl
  rw [hinit] at h1 h2
  rw [hout] at h2
  have hc := congrArg LzwCtl.curCode h1
  have hs := congrArg LzwCtl.codeSize h1
  simp only [ctlOf] at hc hs
  simp only [GifWriteLzwImage, lzwFinish, frameCodes, ctlAfter, List.map_append,
    writeCodes_append, ← h2, hc, hs, List.map_cons, List.map_nil, LzwOut.pair]
  simp only [writeCodes, List.foldl_cons, List.foldl_nil]

/-! ## C11: calls after GifEnd -/

/-- C11. After a `GifEnd` call that returned true, every `GifWriteFrame8` call and
every further `GifEnd` call on the writer returns false, leaves the writer as it
is (so the same holds for the calls that follow) and writes nothing: the writer
has no file and no file is closed. -/
theorem calls_after_GifEnd (writer : GifWriter) (hend : (GifEnd writer).1 = true) :
    (GifEnd writer).2.1.f = none ∧
    (∀ image width height delay,
      GifWriteFrame8 (GifEnd writer).2.1 image width height delay
        = some (false, (GifEnd writer).2.1)) ∧
    GifEnd (GifEnd writer).2.1 = (false, (GifEnd writer).2.1, none) := by
  cases hf : writer.f with
  | none => simp [GifEnd, hf] at hend
  | some f =>
    have h : (GifEnd writer).2.1
        = { f := none, oldImage := none, firstFrame := writer.firstFrame,
            globalPal := none } := by
      simp [GifEnd, hf]
    rw [h]
    exact ⟨rfl, fun _ _ _ _ => rfl, rfl⟩

/-- C11, at a session closed after its header. -/
theorem calls_after_GifEnd_witness :
    (GifEnd ⟨some [71], some [0, 0, 0, 0], true, some (greyPalette 2)⟩).1 = true ∧
    (GifEnd ⟨some [71], some [0, 0, 0, 0], true, some (greyPalette 2)⟩).2.1.f = none ∧
    (∀ image width height delay,
      GifWriteFrame8 (GifEnd ⟨some [71], some [0, 0, 0, 0], true, some (greyPalette 2)⟩).2.1
          image width height delay
        = some (false, (GifEnd ⟨some [71], some [0, 0, 0, 0], true,
            some (greyPalette 2)⟩).2.1)) ∧
    GifEnd (GifEnd ⟨some [71], some [0, 0, 0, 0], true, some (greyPalette 2)⟩).2.1
      = (false, (GifEnd ⟨some [71], some [0, 0, 0, 0], true, some (greyPalette 2)⟩).2.1,
          none) :=
  ⟨rfl, calls_after_GifEnd ⟨some [71], some [0, 0, 0, 0], true, some (greyPalette 2)⟩ rfl⟩

/-! ## C12: when GifBegin fails -/

/-- With a non-null file and a null palette, which is the default argument of the
declaration in `gif.h`, `GifBegin` reaches the `memcpy` and `GifWritePalette` calls
and dereferences the null palette: the call has no result. -/
theorem GifBegin_null_palette (writer : GifWriter) (f0 : List Nat)
    (width height delay : Nat) (garbage : Nat → Nat) :
    GifBegin writer (some f0) width height delay none garbage = none := rfl

/-- C12 fails for the default palette argument: `GifBegin` on a non-null (empty)
file with width 1, height 1, delay 0 and a null `globalPal` writes the packed byte
of the null branch and then dereferences the null palette, so it has no result and
in particular does not return true, although the file handle is not null. -/
theorem GifBegin_null_palette_no_return :
    GifBegin blankWriter (some []) 1 1 0 none (fun _ => 0) = none ∧
    ∀ w, GifBegin blankWriter (some []) 1 1 0 none (fun _ => 0) ≠ some (true, w) := by
  rw [GifBegin_null_palette]
  exact ⟨rfl, fun w h => by cases h⟩

/-- The part of C12 that holds: `GifBegin` returns false exactly when the file
handle is null, whatever the palette; in that case the writer is returned as it
was and no file exists to be written; with a non-null handle and a non-null
palette it returns true and leaves the writer with the file, the palette, a
previous-frame buffer and the first-frame flag set. -/
theorem GifBegin_fails_iff_null (writer : GifWriter) (file : Option (List Nat))
    (width height delay : Nat) (globalPal : Option GifPalette) (garbage : Nat → Nat) :
    ((∃ w, GifBegin writer file width height delay globalPal garbage = some (false, w))
      ↔ file = none) ∧
    GifBegin writer none width height delay globalPal garbage = some (false, writer) ∧
    (∀ f0 pal, ∃ w0 f old,
      GifBegin writer (some f0) width height delay (some pal) garbage = some (true, w0) ∧
      w0.f = some f ∧ w0.globalPal = some pal ∧ w0.oldImage = some old ∧
      w0.firstFrame = true) := by
  refine ⟨⟨?_, ?_⟩, rfl, fun f0 pal => ?_⟩
  · rintro ⟨w, hw⟩
    cases file with
    | none => rfl
    | some f0 =>
      cases globalPal with
      | none => simp [GifBegin] at hw
      | some pal => simp [GifBegin] at hw
  · intro h
    subst h
    exact ⟨writer, rfl⟩
  · obtain ⟨f, hf⟩ := GifBegin_open writer f0 width height delay pal garbage
    exact ⟨_, f, _, hf, rfl, rfl, rfl, rfl⟩

/-! ## C13: frame dimensions are not checked -/

/-- C13 fails: on a session begun with width 2 and height 1, a `GifWriteFrame8`
call with width 1 and height 1 returns true and writes a 1x1 frame. -/
theorem dimension_mismatch_accepted :
    ((GifBegin blankWriter (some []) 2 1 0 (some (greyPalette 2)) (fun _ => 0)).bind fun b =>
      (GifWriteFrame8 b.2 [1] 1 1 0).map fun r =>
        (r.1, (r.2.f.getD []).drop 25)) =
    some (true, [0x21, 0xF9, 4, 5, 0, 0, 0, 0, 0x2C, 0, 0, 0, 0, 1, 0, 1, 0, 0, 2,
      2, 12, 11, 0]) := by
  decide

/-- C13 as amended. `GifWriteFrame8` makes no comparison with the dimensions given
to `GifBegin`, which the writer does not record: on a session begun with
`width0` and `height0`, after any frames of that size, a call with any `width`
and `height` whose frame fits the allocated buffer returns true and writes the
frame with the dimensions of the call. -/
theorem GifWriteFrame8_any_dimensions (writer : GifWriter) (f0 : List Nat)
    (width0 height0 delay0 : Nat) (pal : GifPalette) (garbage : Nat → Nat)
    (frames : List (List Nat × Nat)) (image : List Nat) (width height delay : Nat)
    (hsz : width0 * height0 * 4 < 2 ^ 32) (hfit : width * height ≤ width0 * height0) :
    ∃ w0 wk f old w1,
      GifBegin writer (some f0) width0 height0 delay0 (some pal) garbage = some (true, w0) ∧
      writeFrames width0 height0 w0 frames = some wk ∧
      wk.f = some f ∧ wk.oldImage = some old ∧ 4 * (width * height) ≤ old.length ∧
      GifWriteFrame8 wk image width height delay = some (true, w1) ∧
      w1.f = some (GifWriteLzwImage f
        (GifDeltaImage (if wk.firstFrame then none else some old) image old width height pal)
        0 0 width height delay pal) := by
  obtain ⟨f, hbegin⟩ := GifBegin_open writer f0 width0 height0 delay0 pal garbage
  obtain ⟨wk, fk, oldk, hrun, hfk, hpk, hok, hlen, _⟩ :=
    writeFrames_open width0 height0 (by omega) pal frames
      ⟨some f, some ((List.range ((width0 * height0 * 4) % 2 ^ 32)).map garbage), true,
        some pal⟩ f _ rfl rfl rfl
  have hbuf : oldk.length = 4 * (width0 * height0) := by
    rw [hlen, List.length_map, List.length_range, Nat.mod_eq_of_lt hsz]; omega
  exact ⟨_, wk, fk, oldk, _, hbegin, hrun, hfk, hok, by omega,
    GifWriteFrame8_open wk fk oldk pal image width height delay hfk hpk hok, rfl⟩

/-- C13 as amended, at a 1x1 frame on a 2x1 session. -/
theorem GifWriteFrame8_any_dimensions_witness :
    (2 * 1 * 4 < 2 ^ 32 ∧ 1 * 1 ≤ 2 * 1) ∧
    ∃ w0 wk f old w1,
      GifBegin blankWriter (some []) 2 1 0 (some (greyPalette 2)) (fun _ => 0)
        = some (true, w0) ∧
      writeFrames 2 1 w0 [([1, 2], 0)] = some wk ∧
      wk.f = some f ∧ wk.oldImage = some old ∧ 4 * (1 * 1) ≤ old.length ∧
      GifWriteFrame8 wk [3] 1 1 0 = some (true, w1) ∧
      w1.f = some (GifWriteLzwImage f
        (GifDeltaImage (if wk.firstFrame then none else some old) [3] old 1 1
          (greyPalette 2))
        0 0 1 1 0 (greyPalette 2)) :=
  ⟨⟨by decide, by decide⟩,
   GifWriteFrame8_any_dimensions blankWriter [] 2 1 0 (greyPalette 2) (fun _ => 0)
    [([1, 2], 0)] [3] 1 1 0 (by decide) (by decide)⟩

/-! ## Lemmas on the control state of the compressor -/

theorem clearCode_eq (bd : Nat) (h8 : bd ≤ 8) : (1 <<< bd) % 2 ^ 32 = 2 ^ bd := by
  have hpow : 2 ^ bd ≤ 2 ^ 8 := Nat.pow_le_pow_right (by decide) h8
  rw [Nat.shiftLeft_eq, Nat.one_mul]
  exact Nat.mod_eq_of_lt (by omega)

theorem two_pow_bitDepth_bounds (bd : Nat) (h1 : 1 ≤ bd) (h8 : bd ≤ 8) :
    2 ≤ 2 ^ bd ∧ 2 ^ bd ≤ 256 ∧ 2 ^ (bd + 1) = 2 * 2 ^ bd := by
  have hlo : 2 ^ 1 ≤ 2 ^ bd := Nat.pow_le_pow_right (by decide) h1
  have hhi : 2 ^ bd ≤ 2 ^ 8 := Nat.pow_le_pow_right (by decide) h8
  refine ⟨by simpa using hlo, by simpa using hhi, ?_⟩
  rw [pow_succ]; omega

theorem WidthInv_init (pal : GifPalette) (h1 : 1 ≤ pal.bitDepth) (h8 : pal.bitDepth ≤ 8) :
    WidthInv pal.bitDepth (ctlInit pal) := by
  obtain ⟨hlo, hhi, hsucc⟩ := two_pow_bitDepth_bounds pal.bitDepth h1 h8
  simp only [WidthInv, ctlInit, clearCode_eq pal.bitDepth h8, Nat.add_sub_cancel]
  omega

/-- The width arithmetic of one assignment: with `cs` and `mc` in the bounds of
`WidthInv` and the new code `mc + 1` below 4095, the width after the test
`maxCode >= (1ul << codeSize)` keeps the bounds. -/
theorem width_after_assign (cs mc : Nat) (hcs : cs ≤ 12)
    (h1 : 2 ^ (cs - 1) ≤ mc) (h2 : mc < 2 ^ cs) (h3 : mc + 1 ≤ 4094) :
    (mc + 1 ≥ 2 ^ cs ↔ mc + 1 = 2 ^ cs) ∧
    (mc + 1 = 2 ^ cs → cs + 1 ≤ 12 ∧ 2 ^ (cs + 1 - 1) ≤ mc + 1 ∧ mc + 1 < 2 ^ (cs + 1)) ∧
    (mc + 1 ≠ 2 ^ cs → mc + 1 < 2 ^ cs) := by
  refine ⟨⟨fun h => by omega, fun h => by omega⟩, fun h => ?_, fun h => by omega⟩
  have hlt : cs < 12 := by
    by_contra hge
    have : cs = 12 := by omega
    subst this
    norm_num at h
    omega
  refine ⟨by omega, by simp [h], ?_⟩
  rw [pow_succ]; omega

theorem width_at_reset (cs mc : Nat) (hcs : cs ≤ 12)
    (h2 : mc < 2 ^ cs) (h3 : mc + 1 = 4095) : cs = 12 := by
  by_contra hne
  have hle : cs ≤ 11 := by omega
  have : 2 ^ cs ≤ 2 ^ 11 := Nat.pow_le_pow_right (by decide) hle
  norm_num at this
  omega

/-- The three cases of the body of the pixel loop under the width bounds: no code
is written; a code is written and a new code below 4095 assigned; or the new code
is 4095 and the dictionary is reset. -/
theorem ctlStep_cases (bd cl : Nat) (h1 : 1 ≤ bd) (h8 : bd ≤ 8) (hcl : cl = 2 ^ bd)
    (c : LzwCtl) (v : Nat) (hinv : WidthInv bd c) :
    WidthInv bd (ctlStep bd cl c v).1 ∧
    (((ctlStep bd cl c v).2 = [] ∧ (ctlStep bd cl c v).1.codeSize = c.codeSize ∧
        (ctlStep bd cl c v).1.maxCode = c.maxCode ∧
        (ctlStep bd cl c v).1.codetree = c.codetree) ∨
     (c.maxCode + 1 ≠ 4095 ∧
        (ctlStep bd cl c v).2 = [LzwOut.run (toU32 c.curCode) c.codeSize] ∧
        (ctlStep bd cl c v).1.maxCode = c.maxCode + 1 ∧
        (ctlStep bd cl c v).1.codeSize
          = (if c.maxCode + 1 = 2 ^ c.codeSize then c.codeSize + 1 else c.codeSize)) ∨
     (c.maxCode + 1 = 4095 ∧ c.codeSize = 12 ∧
        (ctlStep bd cl c v).2 = [LzwOut.run (toU32 c.curCode) 12, LzwOut.clear 12] ∧
        (ctlStep bd cl c v).1.codeSize = bd + 1 ∧
        (ctlStep bd cl c v).1.maxCode = 2 ^ bd + 1 ∧
        (ctlStep bd cl c v).1.codetree = fun _ _ => 0)) := by
  obtain ⟨hlo, hhi, hsucc⟩ := two_pow_bitDepth_bounds bd h1 h8
  obtain ⟨i1, i2, i3, i4, i5, i6⟩ := hinv
  subst hcl
  unfold ctlStep
  split
  · exact ⟨⟨i1, i2, i3, i4, i5, i6⟩, Or.inl ⟨rfl, rfl, rfl, rfl⟩⟩
  · split
    · exact ⟨⟨i1, i2, i3, i4, i5, i6⟩, Or.inl ⟨rfl, rfl, rfl, rfl⟩⟩
    · have hmod : (c.maxCode + 1) % 2 ^ 32 = c.maxCode + 1 := Nat.mod_eq_of_lt (by omega)
      have hshift : 1 <<< c.codeSize = 2 ^ c.codeSize := by
        rw [Nat.shiftLeft_eq, Nat.one_mul]
      simp only [hmod, hshift]
      by_cases h4095 : c.maxCode + 1 = 4095
      · have hcs := width_at_reset c.codeSize c.maxCode i2 i4 h4095
        have hnb : ¬ (c.maxCode + 1 ≥ 2 ^ c.codeSize) := by
          rw [hcs]; norm_num; omega
        rw [if_pos h4095, if_neg hnb]
        refine ⟨?_, Or.inr (Or.inr ⟨h4095, hcs, by rw [hcs], rfl, rfl, rfl⟩)⟩
        unfold WidthInv
        dsimp only
        refine ⟨le_refl _, by omega, ?_, ?_, le_refl _, by omega⟩
        · rw [Nat.add_sub_cancel]; omega
        · rw [hsucc]; omega
      · obtain ⟨w1, w2, w3⟩ :=
          width_after_assign c.codeSize c.maxCode i2 i3 i4 (by omega)
        rw [if_neg h4095]
        refine ⟨?_, Or.inr (Or.inl ⟨h4095, rfl, rfl, ?_⟩)⟩
        · unfold WidthInv
          dsimp only
          by_cases hb : c.maxCode + 1 = 2 ^ c.codeSize
          · have hge : c.maxCode + 1 ≥ 2 ^ c.codeSize := w1.2 hb
            obtain ⟨b1, b2, b3⟩ := w2 hb
            rw [if_pos hge]
            exact ⟨by omega, b1, b2, b3, by omega, by omega⟩
          · have hng : ¬ (c.maxCode + 1 ≥ 2 ^ c.codeSize) := fun h => hb (w1.1 h)
            rw [if_neg hng]
            exact ⟨i1, i2, by omega, w3 hb, by omega, by omega⟩
        · dsimp only
          by_cases hb : c.maxCode + 1 = 2 ^ c.codeSize
          · rw [if_pos (w1.2 hb), if_pos hb]
          · have hng : ¬ (c.maxCode + 1 ≥ 2 ^ c.codeSize) := fun h => hb (w1.1 h)
            rw [if_neg hng, if_neg hb]

theorem ctlRun_WidthInv (bd cl : Nat) (h1 : 1 ≤ bd) (h8 : bd ≤ 8) (hcl : cl = 2 ^ bd)
    (pixels : List Nat) :
    ∀ (c : LzwCtl), WidthInv bd c → WidthInv bd (ctlRun bd cl c pixels).1 := by
  induction pixels with
  | nil => intro c h; exact h
  | cons v vs ih =>
    intro c h
    exact ih _ (ctlStep_cases bd cl h1 h8 hcl c v h).1

theorem ctlAfter_WidthInv (pal : GifPalette) (h1 : 1 ≤ pal.bitDepth) (h8 : pal.bitDepth ≤ 8)
    (pixels : List Nat) : WidthInv pal.bitDepth (ctlAfter pal pixels) :=
  ctlRun_WidthInv pal.bitDepth _ h1 h8 (clearCode_eq pal.bitDepth h8) pixels _
    (WidthInv_init pal h1 h8)
theorem ctlRun_append (m cl : Nat) (a b : List Nat) :
    ∀ (c : LzwCtl),
      ctlRun m cl c (a ++ b)
        = ((ctlRun m cl (ctlRun m cl c a).1 b).1,
            (ctlRun m cl c a).2 ++ (ctlRun m cl (ctlRun m cl c a).1 b).2) := by
  induction a with
  | nil => intro c; simp [ctlRun]
  | cons v vs ih =>
    intro c
    have h := ih (ctlStep m cl c v).1
    show ((ctlRun m cl (ctlStep m cl c v).1 (vs ++ b)).1,
        (ctlStep m cl c v).2 ++ (ctlRun m cl (ctlStep m cl c v).1 (vs ++ b)).2) = _
    rw [h]
    simp only [ctlRun, List.append_assoc]

theorem ctlOf_lzwStateAfter (f : List Nat) (pal : GifPalette) (pre : List Nat) :
    ctlOf (lzwStateAfter f pal pre) = ctlAfter pal pre :=
  (lzwLoop_ctl pal.bitDepth ((1 <<< pal.bitDepth) % 2 ^ 32) pre (lzwInit f pal)).1

theorem lzwStateAfter_snoc (f : List Nat) (pal : GifPalette) (pre : List Nat) (v : Nat) :
    lzwStateAfter f pal (pre ++ [v])
      = lzwStep pal.bitDepth ((1 <<< pal.bitDepth) % 2 ^ 32) (lzwStateAfter f pal pre) v := by
  simp [lzwStateAfter, List.foldl_append]

theorem codesAfter_snoc (f : List Nat) (pal : GifPalette) (pre : List Nat) (v : Nat) :
    codesAfter pal (pre ++ [v])
      = codesAfter pal pre ++ lzwStepCodes pal (lzwStateAfter f pal pre) v := by
  simp only [codesAfter, lzwStepCodes, ctlRun_append, ctlOf_lzwStateAfter, ctlAfter, ctlRun,
    List.append_nil, List.cons_append]

theorem ctlStep_curCode_nonneg (m cl : Nat) (c : LzwCtl) (v : Nat) :
    0 ≤ (ctlStep m cl c v).1.curCode := by
  unfold ctlStep
  split
  · exact Int.ofNat_nonneg _
  · split
    · exact Int.ofNat_nonneg _
    · dsimp only
      split <;> exact Int.ofNat_nonneg _

theorem ctlRun_curCode_nonneg (m cl : Nat) (pixels : List Nat) :
    ∀ (c : LzwCtl), (pixels ≠ [] ∨ 0 ≤ c.curCode) → 0 ≤ (ctlRun m cl c pixels).1.curCode := by
  induction pixels with
  | nil =>
    intro c h
    rcases h with h | h
    · exact absurd rfl h
    · exact h
  | cons v vs ih =>
    intro c _
    exact ih _ (Or.inr (ctlStep_curCode_nonneg m cl c v))

theorem lzwPixels_length (image : List Nat) (width height : Nat) :
    (lzwPixels image width height).length = height * width := by
  unfold lzwPixels
  induction height with
  | zero => simp
  | succ n ih =>
    rw [List.range_succ, List.flatMap_append, List.length_append, ih]
    simp [Nat.succ_mul]

theorem lzwPixels_ne_nil (image : List Nat) (width height : Nat) (hw : 0 < width)
    (hh : 0 < height) : lzwPixels image width height ≠ [] := by
  intro h
  have := lzwPixels_length image width height
  rw [h] at this
  have hpos : 0 < height * width := Nat.mul_pos hh hw
  simp at this
  omega
theorem runsSinceClear_append (a b : List LzwOut) :
    runsSinceClear (a ++ b)
      = b.foldl (fun n o =>
          match o with
          | LzwOut.run _ _ => n + 1
          | LzwOut.clear _ => 0
          | LzwOut.stop _ => n) (runsSinceClear a) := by
  simp [runsSinceClear, List.foldl_append]

/-- The body of the pixel loop in a state of a frame: the width bounds hold
before and after, the writes are those of `lzwStepCodes`, and one of the three
cases of `ctlStep_cases` applies. -/
theorem lzwStep_cases (f : List Nat) (pal : GifPalette) (pre : List Nat) (v : Nat)
    (h1 : 1 ≤ pal.bitDepth) (h8 : pal.bitDepth ≤ 8) :
    WidthInv pal.bitDepth (ctlOf (lzwStateAfter f pal pre)) ∧
    ((lzwStateAfter f pal (pre ++ [v])).f, (lzwStateAfter f pal (pre ++ [v])).stat)
      = writeCodes ((lzwStateAfter f pal pre).f, (lzwStateAfter f pal pre).stat)
          ((lzwStepCodes pal (lzwStateAfter f pal pre) v).map
            (LzwOut.pair ((1 <<< pal.bitDepth) % 2 ^ 32))) ∧
    ((lzwStepCodes pal (lzwStateAfter f pal pre) v = [] ∧
        (lzwStateAfter f pal (pre ++ [v])).codeSize = (lzwStateAfter f pal pre).codeSize ∧
        (lzwStateAfter f pal (pre ++ [v])).maxCode = (lzwStateAfter f pal pre).maxCode ∧
        (lzwStateAfter f pal (pre ++ [v])).codetree = (lzwStateAfter f pal pre).codetree) ∨
     ((lzwStateAfter f pal pre).maxCode + 1 ≠ 4095 ∧
        lzwStepCodes pal (lzwStateAfter f pal pre) v
          = [LzwOut.run (toU32 (lzwStateAfter f pal pre).curCode)
              (lzwStateAfter f pal pre).codeSize] ∧
        (lzwStateAfter f pal (pre ++ [v])).maxCode = (lzwStateAfter f pal pre).maxCode + 1 ∧
        (lzwStateAfter f pal (pre ++ [v])).codeSize
          = (if (lzwStateAfter f pal pre).maxCode + 1 = 2 ^ (lzwStateAfter f pal pre).codeSize
              then (lzwStateAfter f pal pre).codeSize + 1
              else (lzwStateAfter f pal pre).codeSize)) ∨
     ((lzwStateAfter f pal pre).maxCode + 1 = 4095 ∧
        (lzwStateAfter f pal pre).codeSize = 12 ∧
        lzwStepCodes pal (lzwStateAfter f pal pre) v
          = [LzwOut.run (toU32 (lzwStateAfter f pal pre).curCode) 12, LzwOut.clear 12] ∧
        (lzwStateAfter f pal (pre ++ [v])).codeSize = pal.bitDepth + 1 ∧
        (lzwStateAfter f pal (pre ++ [v])).maxCode = 2 ^ pal.bitDepth + 1 ∧
        (lzwStateAfter f pal (pre ++ [v])).codetree = fun _ _ => 0)) := by
  have hinv : WidthInv pal.bitDepth (ctlOf (lzwStateAfter f pal pre)) := by
    rw [ctlOf_lzwStateAfter]
    exact ctlAfter_WidthInv pal h1 h8 pre
  obtain ⟨hctl, hout⟩ := lzwStep_ctl pal.bitDepth ((1 <<< pal.bitDepth) % 2 ^ 32)
    (lzwStateAfter f pal pre) v
  obtain ⟨_, hcases⟩ := ctlStep_cases pal.bitDepth ((1 <<< pal.bitDepth) % 2 ^ 32) h1 h8
    (clearCode_eq pal.bitDepth h8) (ctlOf (lzwStateAfter f pal pre)) v hinv
  rw [← hctl] at hcases
  rw [lzwStateAfter_snoc]
  exact ⟨hinv, hout, hcases⟩

/-- The number of run codes written since the last clear code is the number of
codes assigned since then. -/
theorem runsSinceClear_codesAfter (f : List Nat) (pal : GifPalette) (pre : List Nat)
    (h1 : 1 ≤ pal.bitDepth) (h8 : pal.bitDepth ≤ 8) :
    runsSinceClear (codesAfter pal pre) + (2 ^ pal.bitDepth + 1)
      = (lzwStateAfter f pal pre).maxCode := by
  induction pre using List.reverseRecOn with
  | nil =>
    have hm : (lzwStateAfter f pal []).maxCode = (1 <<< pal.bitDepth) % 2 ^ 32 + 1 := rfl
    have hc : runsSinceClear (codesAfter pal []) = 0 := rfl
    rw [hm, hc, clearCode_eq pal.bitDepth h8]
    omega
  | append_singleton pre v ih =>
    obtain ⟨_, _, hcases⟩ := lzwStep_cases f pal pre v h1 h8
    rw [codesAfter_snoc f, runsSinceClear_append]
    rcases hcases with ⟨ho, _, hm, _⟩ | ⟨_, ho, hm, _⟩ | ⟨_, _, ho, _, hm, _⟩
    · rw [ho, hm, ← ih]; rfl
    · rw [ho, hm, ← ih]
      simp only [List.foldl_cons, List.foldl_nil]
      omega
    · rw [ho, hm]
      simp only [List.foldl_cons, List.foldl_nil]
      omega

/-- The arguments of the `GifWriteCode` calls of a frame. -/
theorem frameCodes_pairs (pal : GifPalette) (pixels : List Nat) (h8 : pal.bitDepth ≤ 8) :
    (frameCodes pal pixels).map (LzwOut.pair ((1 <<< pal.bitDepth) % 2 ^ 32))
      = (2 ^ pal.bitDepth, pal.bitDepth + 1) ::
        ((ctlRun pal.bitDepth ((1 <<< pal.bitDepth) % 2 ^ 32) (ctlInit pal) pixels).2.map
            (LzwOut.pair ((1 <<< pal.bitDepth) % 2 ^ 32)) ++
          [(toU32 (ctlAfter pal pixels).curCode, (ctlAfter pal pixels).codeSize),
           (2 ^ pal.bitDepth, (ctlAfter pal pixels).codeSize),
           (2 ^ pal.bitDepth + 1, pal.bitDepth + 1)]) := by
  have hcl := clearCode_eq pal.bitDepth h8
  have hpow : 2 ^ pal.bitDepth ≤ 2 ^ 8 := Nat.pow_le_pow_right (by decide) h8
  have hend : ((1 <<< pal.bitDepth) % 2 ^ 32 + 1) % 2 ^ 32 = 2 ^ pal.bitDepth + 1 := by
    rw [hcl]
    exact Nat.mod_eq_of_lt (by omega)
  simp only [frameCodes, List.map_append, List.map_cons, List.map_nil, LzwOut.pair,
    List.cons_append, List.nil_append, hend]
  rw [hcl]

theorem exists_front_of_three (w : Nat × Nat) (a : List (Nat × Nat)) (x y z : Nat × Nat) :
    ∃ front, w :: (a ++ [x, y, z]) = front ++ [z] :=
  ⟨w :: (a ++ [x, y]), by simp⟩

/-! ## C14: the minimum code size -/

/-- C14 fails at a 1x1 frame with a two-entry palette: the minimum-code-size byte
that `GifWriteLzwImage` writes (the 19th byte of the frame) is 1, not at least
2, and the four codes written are the clear code 2, the pixel's code 1, the clear
code 2 and the end code 3, all at width 2. -/
theorem min_code_size_one_bit :
    (GifWriteLzwImage [] [0, 0, 0, 1] 0 0 1 1 0 (greyPalette 1)).getD 18 0 = 1 ∧
    ¬ (2 ≤ (GifWriteLzwImage [] [0, 0, 0, 1] 0 0 1 1 0 (greyPalette 1)).getD 18 0) ∧
    (frameCodes (greyPalette 1) (lzwPixels [0, 0, 0, 1] 1 1)).map (LzwOut.pair 2)
      = [(2, 2), (1, 2), (2, 2), (3, 2)] := by
  decide

/-- C14 as amended. For every bit depth from 1 to 8 the minimum-code-size byte
written before the data sub-blocks is the palette's bit depth (1 for a two-entry
palette); the first code written is the clear code `2 ^ bitDepth` and the last the
end code `2 ^ bitDepth + 1`, both at width `bitDepth + 1`. -/
theorem min_code_size_is_bitDepth (f image : List Nat) (left top width height delay : Nat)
    (pPal : GifPalette) (h1 : 1 ≤ pPal.bitDepth) (h8 : pPal.bitDepth ≤ 8) :
    (GifWriteLzwImage f image left top width height delay pPal).getD (f.length + 18) 0
      = pPal.bitDepth ∧
    (∃ rest, (frameCodes pPal (lzwPixels image width height)).map
        (LzwOut.pair ((1 <<< pPal.bitDepth) % 2 ^ 32))
      = (2 ^ pPal.bitDepth, pPal.bitDepth + 1) :: rest) ∧
    (∃ front, (frameCodes pPal (lzwPixels image width height)).map
        (LzwOut.pair ((1 <<< pPal.bitDepth) % 2 ^ 32))
      = front ++ [(2 ^ pPal.bitDepth + 1, pPal.bitDepth + 1)]) := by
  obtain ⟨hlo, hhi, _⟩ := two_pow_bitDepth_bounds pPal.bitDepth h1 h8
  have hpairs := frameCodes_pairs pPal (lzwPixels image width height) h8
  refine ⟨?_, ⟨_, hpairs⟩, ?_⟩
  · obtain ⟨blocks, hb, _, _⟩ := sub_block_frame f image left top width height delay pPal
    rw [hb, lzwHeader_eq _ _ _ _ _ _ _ (by omega), List.append_assoc, List.append_assoc,
      List.getD_eq_getElem?_getD, List.getElem?_append_right (by omega)]
    simp [frameHeader, u16le]
  · rw [hpairs]
    exact exists_front_of_three _ _ _ _ _

/-- C14 as amended, at a two-entry palette. -/
theorem min_code_size_is_bitDepth_witness :
    (1 ≤ (greyPalette 1).bitDepth ∧ (greyPalette 1).bitDepth ≤ 8) ∧
    (GifWriteLzwImage [] [0, 0, 0, 1] 0 0 1 1 0 (greyPalette 1)).getD (([] : List Nat).length + 18) 0
      = (greyPalette 1).bitDepth :=
  ⟨⟨by decide, by decide⟩,
   (min_code_size_is_bitDepth [] [0, 0, 0, 1] 0 0 1 1 0 (greyPalette 1)
      (by decide) (by decide)).1⟩

/-! ## C15: the first and the last codes of a frame -/

/-- C15. For a non-empty frame and a bit depth of at most 8 (1 to 8 included), the `GifWriteCode`
calls of `GifWriteLzwImage` are those of `frameCodes`; the first is the clear
code `2 ^ bitDepth` at width `bitDepth + 1`, and the last three are, in order, the
code of the pending run at the current width, the clear code at the current
width and the end code `2 ^ bitDepth + 1` at width `bitDepth + 1`. -/
theorem stream_framing (f image : List Nat) (left top width height delay : Nat)
    (pPal : GifPalette) (h8 : pPal.bitDepth ≤ 8) (hw : 0 < width) (hh : 0 < height) :
    GifWriteLzwImage f image left top width height delay pPal
      = fputc 0 (flushLast (writeCodes
          (lzwHeader f left top width height delay pPal, freshStatus (List.replicate 256 0))
          ((frameCodes pPal (lzwPixels image width height)).map
            (LzwOut.pair (2 ^ pPal.bitDepth))))).1 ∧
    0 ≤ (lzwStateAfter f pPal (lzwPixels image width height)).curCode ∧
    ∃ mid : List (Nat × Nat),
      (frameCodes pPal (lzwPixels image width height)).map (LzwOut.pair (2 ^ pPal.bitDepth))
        = (2 ^ pPal.bitDepth, pPal.bitDepth + 1) :: mid ++
          [(toU32 (lzwStateAfter f pPal (lzwPixels image width height)).curCode,
              (lzwStateAfter f pPal (lzwPixels image width height)).codeSize),
           (2 ^ pPal.bitDepth, (lzwStateAfter f pPal (lzwPixels image width height)).codeSize),
           (2 ^ pPal.bitDepth + 1, pPal.bitDepth + 1)] := by
  have hcl := clearCode_eq pPal.bitDepth h8
  have hctl := ctlOf_lzwStateAfter f pPal (lzwPixels image width height)
  have hcur : (lzwStateAfter f pPal (lzwPixels image width height)).curCode
      = (ctlAfter pPal (lzwPixels image width height)).curCode := congrArg LzwCtl.curCode hctl
  have hsize : (lzwStateAfter f pPal (lzwPixels image width height)).codeSize
      = (ctlAfter pPal (lzwPixels image width height)).codeSize :=
    congrArg LzwCtl.codeSize hctl
  have hpairs := frameCodes_pairs pPal (lzwPixels image width height) h8
  rw [hcl] at hpairs
  refine ⟨?_, ?_, ?_⟩
  · rw [GifWriteLzwImage_codes, hcl]
  · rw [hcur]
    exact ctlRun_curCode_nonneg _ _ _ _ (Or.inl (lzwPixels_ne_nil image width height hw hh))
  · rw [hpairs, hcur, hsize]
    exact ⟨_, rfl⟩

/-- C15, at the 3x1 frame 1, 2, 3 with a four-entry palette. -/
theorem stream_framing_witness :
    ((greyPalette 2).bitDepth ≤ 8 ∧ 0 < 3 ∧ 0 < 1) ∧
    0 ≤ (lzwStateAfter [] (greyPalette 2)
      (lzwPixels [0, 0, 0, 1, 0, 0, 0, 2, 0, 0, 0, 3] 3 1)).curCode :=
  ⟨⟨by decide, by decide, by decide⟩,
   (stream_framing [] [0, 0, 0, 1, 0, 0, 0, 2, 0, 0, 0, 3] 0 0 3 1 0 (greyPalette 2)
      (by decide) (by decide) (by decide)).2.1⟩

/-! ## C16: growth of the code width -/

/-- C16. For a bit depth from 1 to 8, in the state `s` of the pixel loop after any
pixel values `pre` and for any next value `v` (state `s'` after it): the width is
`bitDepth + 1` when the loop starts, right after the first clear code; it stays
between `bitDepth + 1` and 12, with `2 ^ (width - 1) ≤ maxCode < 2 ^ width`
whenever a code is written, `maxCode` being the highest code assigned so far;
a run code is written at the width of `s`; a clear code is written in the loop
only at width 12, with the new code 4095, and the width is `bitDepth + 1` right
after it; and when no clear code is written the width does not decrease, and it
grows, by exactly one, precisely when a code is assigned and that code
`maxCode + 1` equals `2 ^ width`. -/
theorem code_width_growth (f : List Nat) (pal : GifPalette) (pre : List Nat) (v : Nat)
    (h1 : 1 ≤ pal.bitDepth) (h8 : pal.bitDepth ≤ 8) :
    (lzwStateAfter f pal []).codeSize = pal.bitDepth + 1 ∧
    (pal.bitDepth + 1 ≤ (lzwStateAfter f pal pre).codeSize ∧
      (lzwStateAfter f pal pre).codeSize ≤ 12 ∧
      2 ^ ((lzwStateAfter f pal pre).codeSize - 1) ≤ (lzwStateAfter f pal pre).maxCode ∧
      (lzwStateAfter f pal pre).maxCode < 2 ^ (lzwStateAfter f pal pre).codeSize) ∧
    ((lzwStateAfter f pal (pre ++ [v])).f, (lzwStateAfter f pal (pre ++ [v])).stat)
      = writeCodes ((lzwStateAfter f pal pre).f, (lzwStateAfter f pal pre).stat)
          ((lzwStepCodes pal (lzwStateAfter f pal pre) v).map
            (LzwOut.pair ((1 <<< pal.bitDepth) % 2 ^ 32))) ∧
    (∀ code w, LzwOut.run code w ∈ lzwStepCodes pal (lzwStateAfter f pal pre) v →
      w = (lzwStateAfter f pal pre).codeSize) ∧
    (∀ w, LzwOut.clear w ∈ lzwStepCodes pal (lzwStateAfter f pal pre) v →
      w = 12 ∧ (lzwStateAfter f pal pre).maxCode + 1 = 4095 ∧
      (lzwStateAfter f pal (pre ++ [v])).codeSize = pal.bitDepth + 1) ∧
    ((∀ w, LzwOut.clear w ∉ lzwStepCodes pal (lzwStateAfter f pal pre) v) →
      (lzwStateAfter f pal pre).codeSize ≤ (lzwStateAfter f pal (pre ++ [v])).codeSize ∧
      (lzwStateAfter f pal (pre ++ [v])).codeSize ≤ (lzwStateAfter f pal pre).codeSize + 1 ∧
      ((lzwStateAfter f pal (pre ++ [v])).codeSize = (lzwStateAfter f pal pre).codeSize + 1 ↔
        (lzwStepCodes pal (lzwStateAfter f pal pre) v ≠ [] ∧
          (lzwStateAfter f pal pre).maxCode + 1
            = 2 ^ (lzwStateAfter f pal pre).codeSize))) := by
  obtain ⟨⟨i1, i2, i3, i4, _, _⟩, hout, hcases⟩ := lzwStep_cases f pal pre v h1 h8
  refine ⟨rfl, ⟨i1, i2, i3, i4⟩, hout, ?_, ?_, ?_⟩
  · intro code w hmem
    rcases hcases with ⟨ho, _⟩ | ⟨_, ho, _⟩ | ⟨_, hcs, ho, _⟩
    · rw [ho] at hmem; simp at hmem
    · rw [ho] at hmem
      simp only [List.mem_singleton, LzwOut.run.injEq] at hmem
      exact hmem.2
    · rw [ho] at hmem
      simp only [List.mem_cons, LzwOut.run.injEq, reduceCtorEq, List.mem_singleton,
        List.not_mem_nil, or_false] at hmem
      rw [hcs]; exact hmem.2
  · intro w hmem
    rcases hcases with ⟨ho, _⟩ | ⟨_, ho, _⟩ | ⟨hm, _, ho, hs, _⟩
    · rw [ho] at hmem; simp at hmem
    · rw [ho] at hmem; simp at hmem
    · rw [ho] at hmem
      simp only [List.mem_cons, reduceCtorEq, LzwOut.clear.injEq, List.mem_singleton,
        List.not_mem_nil, or_false, false_or] at hmem
      exact ⟨hmem, hm, hs⟩
  · intro hno
    rcases hcases with ⟨ho, hs, _⟩ | ⟨_, ho, _, hs⟩ | ⟨_, _, ho, _⟩
    · rw [hs, ho]
      exact ⟨le_refl _, by omega, ⟨fun h => by omega, fun h => absurd rfl h.1⟩⟩
    · rw [hs, ho]
      by_cases hb : (lzwStateAfter f pal pre).maxCode + 1
          = 2 ^ (lzwStateAfter f pal pre).codeSize
      · rw [if_pos hb]
        exact ⟨by omega, le_refl _, ⟨fun _ => ⟨by simp, hb⟩, fun _ => rfl⟩⟩
      · rw [if_neg hb]
        exact ⟨le_refl _, by omega, ⟨fun h => by omega, fun h => absurd h.2 hb⟩⟩
    · exact absurd (by rw [ho]; simp) (hno 12)

/-- C16, at the state after the pixel values 1, 2 with a four-entry palette. -/
theorem code_width_growth_witness :
    (1 ≤ (greyPalette 2).bitDepth ∧ (greyPalette 2).bitDepth ≤ 8) ∧
    (lzwStateAfter [] (greyPalette 2) []).codeSize = (greyPalette 2).bitDepth + 1 ∧
    ((greyPalette 2).bitDepth + 1 ≤ (lzwStateAfter [] (greyPalette 2) [1, 2]).codeSize ∧
      (lzwStateAfter [] (greyPalette 2) [1, 2]).codeSize ≤ 12 ∧
      2 ^ ((lzwStateAfter [] (greyPalette 2) [1, 2]).codeSize - 1)
        ≤ (lzwStateAfter [] (greyPalette 2) [1, 2]).maxCode ∧
      (lzwStateAfter [] (greyPalette 2) [1, 2]).maxCode
        < 2 ^ (lzwStateAfter [] (greyPalette 2) [1, 2]).codeSize) :=
  ⟨⟨by decide, by decide⟩,
   (code_width_growth [] (greyPalette 2) [1, 2] 3 (by decide) (by decide)).1,
   (code_width_growth [] (greyPalette 2) [1, 2] 3 (by decide) (by decide)).2.1⟩

/-! ## C17: the reset of the dictionary -/

/-- C17. For a bit depth from 1 to 8, in the state `s` of the pixel loop after any
pixel values `pre` and for any next value `v`: the loop writes a clear code
exactly when it assigns a new code and that code `maxCode + 1` is 4095; it then
writes the run code and one clear code, both at 12 bits, empties the code tree and
resets the width to `bitDepth + 1` and `maxCode` to the end code; the run codes
written since the last clear code number `maxCode - (2 ^ bitDepth + 1)`, so that
with the run code written at the reset they are `4094 - 2 ^ bitDepth`. -/
theorem dictionary_reset (f : List Nat) (pal : GifPalette) (pre : List Nat) (v : Nat)
    (h1 : 1 ≤ pal.bitDepth) (h8 : pal.bitDepth ≤ 8) :
    ((∃ w, LzwOut.clear w ∈ lzwStepCodes pal (lzwStateAfter f pal pre) v) ↔
      (lzwStepCodes pal (lzwStateAfter f pal pre) v ≠ [] ∧
        (lzwStateAfter f pal pre).maxCode + 1 = 4095)) ∧
    (lzwStepCodes pal (lzwStateAfter f pal pre) v ≠ [] →
      (lzwStateAfter f pal pre).maxCode + 1 = 4095 →
      lzwStepCodes pal (lzwStateAfter f pal pre) v
        = [LzwOut.run (toU32 (lzwStateAfter f pal pre).curCode) 12, LzwOut.clear 12] ∧
      (lzwStateAfter f pal (pre ++ [v])).codetree = (fun _ _ => 0) ∧
      (lzwStateAfter f pal (pre ++ [v])).codeSize = pal.bitDepth + 1 ∧
      (lzwStateAfter f pal (pre ++ [v])).maxCode = 2 ^ pal.bitDepth + 1 ∧
      runsSinceClear (codesAfter pal pre ++
          [LzwOut.run (toU32 (lzwStateAfter f pal pre).curCode) 12])
        = 4094 - 2 ^ pal.bitDepth ∧
      runsSinceClear (codesAfter pal (pre ++ [v])) = 0) ∧
    runsSinceClear (codesAfter pal pre) + (2 ^ pal.bitDepth + 1)
      = (lzwStateAfter f pal pre).maxCode ∧
    codesAfter pal (pre ++ [v])
      = codesAfter pal pre ++ lzwStepCodes pal (lzwStateAfter f pal pre) v := by
  obtain ⟨hlo, hhi, _⟩ := two_pow_bitDepth_bounds pal.bitDepth h1 h8
  obtain ⟨_, _, hcases⟩ := lzwStep_cases f pal pre v h1 h8
  have hcount := runsSinceClear_codesAfter f pal pre h1 h8
  have hsnoc := codesAfter_snoc f pal pre v
  refine ⟨⟨?_, ?_⟩, ?_, hcount, hsnoc⟩
  · rintro ⟨w, hmem⟩
    rcases hcases with ⟨ho, _⟩ | ⟨_, ho, _⟩ | ⟨hm, _, ho, _⟩
    · rw [ho] at hmem; simp at hmem
    · rw [ho] at hmem; simp at hmem
    · exact ⟨by rw [ho]; simp, hm⟩
  · rintro ⟨hne, hm⟩
    rcases hcases with ⟨ho, _⟩ | ⟨hnm, _⟩ | ⟨_, _, ho, _⟩
    · exact absurd ho hne
    · exact absurd hm hnm
    · exact ⟨12, by rw [ho]; simp⟩
  · intro hne hm
    rcases hcases with ⟨ho, _⟩ | ⟨hnm, _⟩ | ⟨_, _, ho, hs, hmax, htree⟩
    · exact absurd ho hne
    · exact absurd hm hnm
    · refine ⟨ho, htree, hs, hmax, ?_, ?_⟩
      · rw [runsSinceClear_append]
        simp only [List.foldl_cons, List.foldl_nil]
        omega
      · rw [hsnoc, ho, runsSinceClear_append]
        rfl

/-- C17, at the state after the pixel values 1, 2 with a four-entry palette. -/
theorem dictionary_reset_witness :
    (1 ≤ (greyPalette 2).bitDepth ∧ (greyPalette 2).bitDepth ≤ 8) ∧
    runsSinceClear (codesAfter (greyPalette 2) [1, 2]) + (2 ^ (greyPalette 2).bitDepth + 1)
      = (lzwStateAfter [] (greyPalette 2) [1, 2]).maxCode :=
  ⟨⟨by decide, by decide⟩,
   (dictionary_reset [] (greyPalette 2) [1, 2] 3 (by decide) (by decide)).2.2.1⟩

/-! ## Lemmas on the dictionary -/

theorem DictInv_init (bound : Nat) (pal : GifPalette) : DictInv bound pal.bitDepth (ctlInit pal) :=
  ⟨Or.inl rfl, fun _ _ => Or.inl rfl⟩

theorem ctlStep_DictInv (bound bd cl : Nat) (h1 : 1 ≤ bd) (h8 : bd ≤ 8)
    (hbound : bound ≤ 256) (c : LzwCtl) (v : Nat) (hv : v < bound)
    (hw : WidthInv bd c) (hd : DictInv bound bd c) :
    DictInv bound bd (ctlStep bd cl c v).1 := by
  obtain ⟨hlo, hhi, hsucc⟩ := two_pow_bitDepth_bounds bd h1 h8
  obtain ⟨i1, i2, i3, i4, i5, i6⟩ := hw
  obtain ⟨hcur, htree⟩ := hd
  have hvcur : (0 : Int) ≤ (v : Int) ∧ (v : Int) ≤ 4094 ∧
      ((v : Int) < (bound : Int) ∨ (2 ^ bd + 2 : Int) ≤ (v : Int)) :=
    ⟨by omega, by omega, Or.inl (by omega)⟩
  unfold ctlStep
  split
  · exact ⟨Or.inr hvcur, htree⟩
  · split
    · rename_i hfound
      refine ⟨Or.inr ?_, htree⟩
      rcases htree c.curCode.toNat v with h0 | ⟨hge, hle⟩
      · exact absurd h0 hfound
      · dsimp only
        refine ⟨by omega, by omega, Or.inr ?_⟩
        exact_mod_cast hge
    · have hmod : (c.maxCode + 1) % 2 ^ 32 = c.maxCode + 1 := Nat.mod_eq_of_lt (by omega)
      simp only [hmod]
      split
      · exact ⟨Or.inr hvcur, fun _ _ => Or.inl rfl⟩
      · rename_i hne
        refine ⟨Or.inr hvcur, fun k w => ?_⟩
        dsimp only
        split
        · have h16 : (c.maxCode + 1) % 2 ^ 16 = c.maxCode + 1 := Nat.mod_eq_of_lt (by omega)
          rw [h16]
          exact Or.inr ⟨by omega, le_refl _⟩
        · rcases htree k w with h0 | ⟨hge, hle⟩
          · exact Or.inl h0
          · exact Or.inr ⟨hge, by omega⟩

theorem ctlRun_DictInv (bound bd cl : Nat) (h1 : 1 ≤ bd) (h8 : bd ≤ 8) (hcl : cl = 2 ^ bd)
    (hbound : bound ≤ 256) (pixels : List Nat) (hpix : ∀ x ∈ pixels, x < bound) :
    ∀ (c : LzwCtl), WidthInv bd c → DictInv bound bd c →
      DictInv bound bd (ctlRun bd cl c pixels).1 := by
  induction pixels with
  | nil => intro c _ h; exact h
  | cons v vs ih =>
    intro c hw hd
    exact ih (fun x hx => hpix x (List.mem_cons_of_mem _ hx)) _
      (ctlStep_cases bd cl h1 h8 hcl c v hw).1
      (ctlStep_DictInv bound bd cl h1 h8 hbound c v (hpix v (List.mem_cons_self _ _)) hw hd)

theorem lzwStateAfter_DictInv (bound : Nat) (f : List Nat) (pal : GifPalette)
    (h1 : 1 ≤ pal.bitDepth) (h8 : pal.bitDepth ≤ 8) (hbound : bound ≤ 256)
    (pre : List Nat) (hpre : ∀ x ∈ pre, x < bound) :
    DictInv bound pal.bitDepth (ctlOf (lzwStateAfter f pal pre)) := by
  rw [ctlOf_lzwStateAfter]
  exact ctlRun_DictInv bound pal.bitDepth _ h1 h8 (clearCode_eq pal.bitDepth h8) hbound pre hpre
    _ (WidthInv_init pal h1 h8) (DictInv_init bound pal)

/-- The states of the padding loop from a state under the bit writer's invariant:
the bit index is at most 7, and the chunk index at most 254 while the loop runs. -/
theorem padLoop_bounds (f0 : List Nat) (j : Nat) :
    ∀ (gp : List (List Bool) × List Bool) (f : List Nat) (stat : GifBitStatus),
      BitInv f0 gp (f, stat) →
      (padLoop j stat).bitIndex ≤ 7 ∧ (padLoop j stat).chunkIndex ≤ 255 ∧
      (padLoop j stat).chunk.length = 256 ∧
      ((padLoop j stat).bitIndex ≠ 0 → (padLoop j stat).chunkIndex ≤ 254) := by
  induction j with
  | zero =>
    intro gp f stat h
    obtain ⟨blocks, _, _, _, hp, hcl, hci, hbi, _, _⟩ := h
    simp only at hcl hci hbi
    simp only [padLoop]
    exact ⟨by omega, by omega, hcl, fun _ => by omega⟩
  | succ n ih =>
    intro gp f stat h
    have h' := h
    obtain ⟨blocks, hf, hb, hg, hp, hcl, hci, hbi, hby, hbytes⟩ := h
    simp only at hf hcl hci hbi hby hbytes
    simp only [padLoop]
    split
    · by_cases hlen : gp.2.length + 1 = 8
      · rw [GifWriteBit_complete stat gp.2 0 hbi hby hlen]
        have hstop : ∀ (m : Nat) (s : GifBitStatus), s.bitIndex = 0 → padLoop m s = s := by
          intro m s hs
          cases m with
          | zero => rfl
          | succ m => simp [padLoop, hs]
        rw [hstop n _ rfl]
        have hmod : (stat.chunkIndex + 1) % 2 ^ 32 = stat.chunkIndex + 1 :=
          Nat.mod_eq_of_lt (by omega)
        simp only [hmod, List.length_set, ne_eq, not_true_eq_false, false_implies, and_true]
        omega
      · have hlt : gp.2.length + 1 < 8 := by omega
        have hinv' : BitInv f0 (gp.1, gp.2 ++ [Nat.testBit 0 0]) (f, GifWriteBit stat 0) := by
          rw [GifWriteBit_unfinished stat gp.2 0 hbi hby hlt]
          exact ⟨blocks, hf, hb, hg, by simpa using hlt, hcl, hci, by simp, rfl, hbytes⟩
        exact ih _ f _ hinv'
    · exact ⟨by omega, by omega, hcl, fun _ => by omega⟩
/-! ## C20: index safety -/

/-- C20. For a bit depth from 1 to 8 and byte pixel values, in the state of the
pixel loop after any pixel values `pre`: the run code is -1 (before the first
pixel, when the loop does not touch the code tree) or between 0 and 4094; every
entry of the code tree is 0 or at least `2 ^ bitDepth + 2`, and so is the code
`maxCode + 1` that the loop stores next.  For every sequence of `GifWriteCode`
calls from a fresh `GifBitStatus`, before each bit of a further code is written
the bit index is at most 7 and the chunk index at most 254 in a chunk buffer of
256 bytes, and so it is in the padding loop as long as it runs. -/
theorem index_safety (f : List Nat) (pal : GifPalette) (pre : List Nat)
    (f0 chunk : List Nat) (codes : List (Nat × Nat)) (code k j : Nat)
    (h1 : 1 ≤ pal.bitDepth) (h8 : pal.bitDepth ≤ 8) (hpre : ∀ x ∈ pre, x < 256)
    (hchunk : chunk.length = 256) :
    ((lzwStateAfter f pal pre).curCode = -1 ∨
      (0 ≤ (lzwStateAfter f pal pre).curCode ∧ (lzwStateAfter f pal pre).curCode ≤ 4094)) ∧
    (∀ c v, (lzwStateAfter f pal pre).codetree c v = 0 ∨
      2 ^ pal.bitDepth + 2 ≤ (lzwStateAfter f pal pre).codetree c v) ∧
    (2 ^ pal.bitDepth + 2 ≤ ((lzwStateAfter f pal pre).maxCode + 1) % 2 ^ 32 % 2 ^ 16 ∧
      ((lzwStateAfter f pal pre).maxCode + 1) % 2 ^ 32 % 2 ^ 16 ≤ 4095) ∧
    ((GifWriteCode (writeCodes (f0, freshStatus chunk) codes) code k).2.bitIndex ≤ 7 ∧
      (GifWriteCode (writeCodes (f0, freshStatus chunk) codes) code k).2.chunkIndex ≤ 254 ∧
      (GifWriteCode (writeCodes (f0, freshStatus chunk) codes) code k).2.chunk.length = 256) ∧
    ((padLoop j (writeCodes (f0, freshStatus chunk) codes).2).bitIndex ≤ 7 ∧
      (padLoop j (writeCodes (f0, freshStatus chunk) codes).2).chunk.length = 256 ∧
      ((padLoop j (writeCodes (f0, freshStatus chunk) codes).2).bitIndex ≠ 0 →
        (padLoop j (writeCodes (f0, freshStatus chunk) codes).2).chunkIndex ≤ 254)) := by
  obtain ⟨hcur, htree⟩ := lzwStateAfter_DictInv 256 f pal h1 h8 (le_refl _) pre hpre
  have hw : WidthInv pal.bitDepth (ctlOf (lzwStateAfter f pal pre)) := by
    rw [ctlOf_lzwStateAfter]
    exact ctlAfter_WidthInv pal h1 h8 pre
  obtain ⟨_, _, _, _, i5, i6⟩ := hw
  simp only [ctlOf] at hcur htree i5 i6
  have hinv := writeCodes_inv f0 codes _ _ (BitInv_fresh f0 chunk hchunk)
  refine ⟨?_, ?_, ?_, ?_, ?_⟩
  · rcases hcur with h | ⟨h0, h4, _⟩
    · exact Or.inl h
    · exact Or.inr ⟨h0, h4⟩
  · intro c v
    rcases htree c v with h | ⟨h, _⟩
    · exact Or.inl h
    · exact Or.inr h
  · have hmod : ((lzwStateAfter f pal pre).maxCode + 1) % 2 ^ 32 % 2 ^ 16
        = (lzwStateAfter f pal pre).maxCode + 1 := by
      rw [Nat.mod_eq_of_lt (by omega), Nat.mod_eq_of_lt (by omega)]
    rw [hmod]
    omega
  · obtain ⟨_, _, _, _, hp, hcl, hci, hbi, _, _⟩ := GifWriteCode_inv f0 k _ _ code hinv
    exact ⟨by omega, by omega, hcl⟩
  · obtain ⟨b1, _, b3, b4⟩ := padLoop_bounds f0 j _ (writeCodes (f0, freshStatus chunk) codes).1
      (writeCodes (f0, freshStatus chunk) codes).2 hinv
    exact ⟨b1, b3, b4⟩

/-- C20, at the state after the pixel values 1, 2 with a four-entry palette. -/
theorem index_safety_witness :
    (1 ≤ (greyPalette 2).bitDepth ∧ (greyPalette 2).bitDepth ≤ 8 ∧
      (∀ x ∈ [1, 2], x < 256) ∧ (List.replicate 256 0).length = 256) ∧
    ((lzwStateAfter [] (greyPalette 2) [1, 2]).curCode = -1 ∨
      (0 ≤ (lzwStateAfter [] (greyPalette 2) [1, 2]).curCode ∧
        (lzwStateAfter [] (greyPalette 2) [1, 2]).curCode ≤ 4094)) :=
  ⟨⟨by decide, by decide, by decide, List.length_replicate _ _⟩,
   (index_safety [] (greyPalette 2) [1, 2] [] (List.replicate 256 0) [(4, 3)] 1 2 0
      (by decide) (by decide) (by decide) (List.length_replicate _ _)).1⟩

/-! ## Lemmas on replaying a session -/

theorem getD_skip_three (x y z : Nat) (l : List Nat) (k : Nat) :
    (x :: y :: z :: l).getD (k + 3) 0 = l.getD k 0 := by
  simp only [List.getD_eq_getElem?_getD, List.getElem?_cons_succ]

theorem getD_flatMap_triples (g0 g1 g2 : Nat → Nat) (n : Nat) :
    ∀ (s j : Nat), j < n →
      ((List.range' s n).flatMap fun i => [g0 i, g1 i, g2 i]).getD (3 * j) 0 = g0 (s + j) ∧
      ((List.range' s n).flatMap fun i => [g0 i, g1 i, g2 i]).getD (3 * j + 1) 0 = g1 (s + j) ∧
      ((List.range' s n).flatMap fun i => [g0 i, g1 i, g2 i]).getD (3 * j + 2) 0 = g2 (s + j) := by
  induction n with
  | zero => intro s j hj; omega
  | succ n ih =>
    intro s j hj
    rw [List.range'_succ, List.flatMap_cons]
    cases j with
    | zero => simp
    | succ j =>
      obtain ⟨a, b, c⟩ := ih (s + 1) j (by omega)
      have hs : s + (j + 1) = s + 1 + j := by omega
      rw [hs, ← a, ← b, ← c]
      refine ⟨?_, ?_, ?_⟩
      · rw [show 3 * (j + 1) = 3 * j + 3 from by omega]
        exact getD_skip_three _ _ _ _ _
      · rw [show 3 * (j + 1) + 1 = 3 * j + 1 + 3 from by omega]
        exact getD_skip_three _ _ _ _ _
      · rw [show 3 * (j + 1) + 2 = 3 * j + 2 + 3 from by omega]
        exact getD_skip_three _ _ _ _ _

/-- The colour table holds the palette colour of every index from 1 on. -/
theorem tableEntry_colorTable (pal : GifPalette) (i : Nat) (h1 : 1 ≤ i)
    (hi : i < 2 ^ pal.bitDepth) :
    tableEntry (colorTable pal) i = (pal.r i, pal.g i, pal.b i) := by
  obtain ⟨j, rfl⟩ : ∃ j, i = j + 1 := ⟨i - 1, by omega⟩
  obtain ⟨a, b, c⟩ := getD_flatMap_triples pal.r pal.g pal.b (2 ^ pal.bitDepth - 1) 1 j
    (by omega)
  have hs : 1 + j = j + 1 := by omega
  rw [hs] at a b c
  simp only [tableEntry, colorTable]
  rw [← a, ← b, ← c, show 3 * (j + 1) = 3 * j + 3 from by omega,
    show 3 * j + 3 + 1 = 3 * j + 1 + 3 from by omega,
    show 3 * j + 3 + 2 = 3 * j + 2 + 3 from by omega]
  exact Prod.ext (getD_skip_three _ _ _ _ _)
    (Prod.ext (getD_skip_three _ _ _ _ _) (getD_skip_three _ _ _ _ _))
theorem lastImage_snoc (front : List (List Nat × Nat)) (image : List Nat) (delay : Nat) :
    ∀ (prev : List Nat), lastImage prev (front ++ [(image, delay)]) = image := by
  induction front with
  | nil => intro prev; rfl
  | cons fr rest ih =>
    intro prev
    obtain ⟨img, d⟩ := fr
    exact ih img

/-- One frame of a session replayed: the delta frame stores the palette colours
of the frame, and replaying it on a canvas that shows the stored previous frame
gives these colours. -/
theorem composite_delta (pal : GifPalette) (image old : List Nat) (width height : Nat)
    (first : Bool) (canvas : Nat → Nat × Nat × Nat)
    (hsz : width * height < 2 ^ 32) (hlen : 4 * (width * height) ≤ old.length)
    (hvalid : ∀ i, i < width * height →
      1 ≤ image.getD i 0 ∧ image.getD i 0 < 2 ^ pal.bitDepth)
    (hcanvas : first = true ∨ ∀ i, i < width * height → rgbAt old i = canvas i)
    (i : Nat) (hi : i < width * height) :
    rgbAt (GifDeltaImage (if first then none else some old) image old width height pal) i
      = resolved pal image i ∧
    composite (colorTable pal) canvas
        (GifDeltaImage (if first then none else some old) image old width height pal) i
      = resolved pal image i := by
  have hpix := deltaLoop_pixel (if first then none else some old) image pal old
    (width * height) i hi hlen
  rw [← GifDeltaImage_eq_deltaLoop _ _ _ _ _ _ hsz] at hpix
  obtain ⟨hv1, hv2⟩ := hvalid i hi
  have htab := tableEntry_colorTable pal (image.getD i 0) hv1 hv2
  have h0 := congrArg (fun p => p.1) hpix
  have h1 := congrArg (fun p => p.2.1) hpix
  have h2 := congrArg (fun p => p.2.2.1) hpix
  have h3 := congrArg (fun p => p.2.2.2) hpix
  obtain ⟨r0, r1, r2⟩ := deltaSpecPixel_rgb (if first then none else some old) pal
    (image.getD i 0) i
  simp only [pixelAt] at h0 h1 h2 h3
  rw [r0] at h0
  rw [r1] at h1
  rw [r2] at h2
  have hrgb : rgbAt (GifDeltaImage (if first then none else some old) image old width height
      pal) i = resolved pal image i := by
    simp only [rgbAt, resolved, h0, h1, h2]
  refine ⟨hrgb, ?_⟩
  simp only [composite, h3]
  cases first with
  | true =>
    simp only [if_true, deltaSpecPixel, kGifTransIndex]
    rw [if_neg (show ¬ image.getD i 0 = 0 from by omega), htab]
    rfl
  | false =>
    have hc : ∀ i, i < width * height → rgbAt old i = canvas i := by
      rcases hcanvas with h | h
      · exact absurd h (by simp)
      · exact h
    simp only [Bool.false_eq_true, if_false, deltaSpecPixel, kGifTransIndex]
    split
    · rename_i heq
      simp only [if_true]
      rw [← hc i hi]
      simp only [rgbAt, resolved]
      exact heq
    · rw [if_neg (show ¬ image.getD i 0 = 0 from by omega), htab]
      rfl

/-- A run of frames replayed on an open session: the canvas and the stored
previous frame show the palette colours of the last frame. -/
theorem replayFrames_inv (pal : GifPalette) (width height : Nat)
    (hsz : width * height < 2 ^ 32) (frames : List (List Nat × Nat)) :
    ∀ (writer : GifWriter) (canvas : Nat → Nat × Nat × Nat) (prev f old : List Nat),
      writer.f = some f → writer.globalPal = some pal → writer.oldImage = some old →
      4 * (width * height) ≤ old.length →
      (writer.firstFrame = true ∨ ∀ i, i < width * height → rgbAt old i = canvas i) →
      (∀ fr ∈ frames, ∀ i, i < width * height →
        1 ≤ fr.1.getD i 0 ∧ fr.1.getD i 0 < 2 ^ pal.bitDepth) →
      ∃ wk canvas1 stored,
        replayFrames width height (colorTable pal) writer canvas frames = some (wk, canvas1) ∧
        wk.oldImage = some stored ∧
        (frames ≠ [] → ∀ i, i < width * height →
          canvas1 i = resolved pal (lastImage prev frames) i ∧ rgbAt stored i = canvas1 i) := by
  induction frames with
  | nil =>
    intro writer canvas prev f old _ _ ho _ _ _
    exact ⟨writer, canvas, old, rfl, ho, fun h => absurd rfl h⟩
  | cons fr rest ih =>
    intro writer canvas prev f old hf hp ho hlen hcanvas hvalid
    obtain ⟨image, delay⟩ := fr
    have hcall := GifWriteFrame8_open writer f old pal image width height delay hf hp ho
    have hstep := composite_delta pal image old width height writer.firstFrame canvas hsz hlen
      (hvalid (image, delay) (List.mem_cons_self _ _)) hcanvas
    have hdl : 4 * (width * height) ≤ (GifDeltaImage
        (if writer.firstFrame then none else some old) image old width height pal).length := by
      rw [GifDeltaImage_eq_deltaLoop _ _ _ _ _ _ hsz, deltaLoop_length]
      exact hlen
    obtain ⟨wk, canvas1, stored, hrun, hst, hlast⟩ :=
      ih ⟨some (GifWriteLzwImage f
            (GifDeltaImage (if writer.firstFrame then none else some old) image old
              width height pal) 0 0 width height delay pal),
          some (GifDeltaImage (if writer.firstFrame then none else some old) image old
            width height pal), false, some pal⟩
        (composite (colorTable pal) canvas
          (GifDeltaImage (if writer.firstFrame then none else some old) image old
            width height pal))
        image _ _ rfl rfl rfl hdl
        (Or.inr fun i hi => by rw [(hstep i hi).1, (hstep i hi).2])
        (fun fr hfr => hvalid fr (List.mem_cons_of_mem _ hfr))
    refine ⟨wk, canvas1, stored, ?_, hst, fun _ i hi => ?_⟩
    · simp only [replayFrames, hcall]
      exact hrun
    · cases rest with
      | nil =>
        simp only [replayFrames, Option.some.injEq, Prod.mk.injEq] at hrun
        obtain ⟨hw, hc⟩ := hrun
        subst hw
        subst hc
        simp only [Option.some.injEq] at hst
        subst hst
        exact ⟨(hstep i hi).2, by rw [(hstep i hi).1, (hstep i hi).2]⟩
      | cons fr2 rest2 =>
        exact hlast (by simp) i hi

/-! ## C19: replaying the frames of a session -/

/-- C19. In a session begun with a palette of bit depth 1 to 8 with byte entries
(dimensions with `width * height * 4` in `uint32_t` range), for frames of the
session's size whose indices are all between 1 and `2 ^ bitDepth - 1`: after any
number of frames and one more frame `image`, the canvas obtained by replaying the
delta frames in order, from any canvas, on the colour table that
`GifWritePalette` writes, shows at every pixel the palette colour of `image`,
and so do the R, G, B channels of the stored previous-frame buffer. -/
theorem replay_shows_frame (writer : GifWriter) (f0 : List Nat) (width height delay0 : Nat)
    (pal : GifPalette) (garbage : Nat → Nat) (canvas0 : Nat → Nat × Nat × Nat)
    (front : List (List Nat × Nat)) (image : List Nat) (delay : Nat)
    (h8 : pal.bitDepth ≤ 8) (hb : paletteBytes pal)
    (hsz : width * height * 4 < 2 ^ 32)
    (hvalid : ∀ fr ∈ front ++ [(image, delay)], ∀ i, i < width * height →
      1 ≤ fr.1.getD i 0 ∧ fr.1.getD i 0 < 2 ^ pal.bitDepth) :
    GifWritePalette pal [] = colorTable pal ∧
    ∃ w0 wk canvas stored,
      GifBegin writer (some f0) width height delay0 (some pal) garbage = some (true, w0) ∧
      replayFrames width height (colorTable pal) w0 canvas0 (front ++ [(image, delay)])
        = some (wk, canvas) ∧
      wk.oldImage = some stored ∧
      ∀ i, i < width * height →
        canvas i = resolved pal image i ∧ rgbAt stored i = canvas i := by
  obtain ⟨f, hbegin⟩ := GifBegin_open writer f0 width height delay0 pal garbage
  have hbuf : 4 * (width * height)
      ≤ ((List.range ((width * height * 4) % 2 ^ 32)).map garbage).length := by
    rw [List.length_map, List.length_range, Nat.mod_eq_of_lt hsz]; omega
  obtain ⟨wk, canvas, stored, hrun, hst, hlast⟩ :=
    replayFrames_inv pal width height (by omega) (front ++ [(image, delay)])
      ⟨some f, some ((List.range ((width * height * 4) % 2 ^ 32)).map garbage), true,
        some pal⟩ canvas0 [] f _ rfl rfl rfl hbuf (Or.inl rfl) hvalid
  refine ⟨by simpa using GifWritePalette_eq pal [] hb h8, _, wk, canvas, stored, hbegin, hrun,
    hst, fun i hi => ?_⟩
  have := hlast (by simp) i hi
  rw [lastImage_snoc] at this
  exact this
/-- C19, at two 2x1 frames with a four-entry palette. -/
theorem replay_shows_frame_witness :
    ((greyPalette 2).bitDepth ≤ 8 ∧ paletteBytes (greyPalette 2) ∧ 2 * 1 * 4 < 2 ^ 32 ∧
      (∀ fr ∈ [([1, 2], 0)] ++ [([1, 3], 0)], ∀ i, i < 2 * 1 →
        1 ≤ fr.1.getD i 0 ∧ fr.1.getD i 0 < 2 ^ (greyPalette 2).bitDepth)) ∧
    ∃ w0 wk canvas stored,
      GifBegin blankWriter (some []) 2 1 0 (some (greyPalette 2)) (fun _ => 0)
        = some (true, w0) ∧
      replayFrames 2 1 (colorTable (greyPalette 2)) w0 (fun _ => (0, 0, 0))
          ([([1, 2], 0)] ++ [([1, 3], 0)])
        = some (wk, canvas) ∧
      wk.oldImage = some stored ∧
      ∀ i, i < 2 * 1 →
        canvas i = resolved (greyPalette 2) [1, 3] i ∧ rgbAt stored i = canvas i :=
  ⟨⟨by decide, greyPalette_bytes 2, by decide, by decide⟩,
   (replay_shows_frame blankWriter [] 2 1 0 (greyPalette 2) (fun _ => 0) (fun _ => (0, 0, 0))
      [([1, 2], 0)] [1, 3] 0 (by decide) (greyPalette_bytes 2) (by decide) (by decide)).2⟩

/-! ## C18: the widths at which a decoder reads the codes -/

/-- C18 fails at the 3x1 frame 1, 2, 3 with a four-entry palette: the compressor
writes the codes 4, 1, 2, 3, 4, 5 at three bits each, whereas a decoder reads the
fifth code, the clear code after the last run code, at four bits, since
`clearCode + 1 + 3 = 2 ^ 3` after the third code since the first clear code. -/
theorem widths_diverge_at_width_boundary :
    (frameCodes (greyPalette 2) (lzwPixels [0, 0, 0, 1, 0, 0, 0, 2, 0, 0, 0, 3] 3 1)).map
        (LzwOut.pair 4)
      = [(4, 3), (1, 3), (2, 3), (3, 3), (4, 3), (5, 3)] ∧
    decoderWidthAfter 2 [4, 1, 2, 3] = 4 ∧
    decoderWidths 2 [4, 1, 2, 3, 4, 5] = [3, 3, 3, 3, 4, 3] ∧
    decoderWidths 2 [4, 1, 2, 3, 4, 5] ≠ [3, 3, 3, 3, 3, 3] := by
  decide

/-! ## Where the written widths are the decoder's -/

theorem decoderWidths_snoc (m : Nat) (cs : List Nat) (c : Nat) :
    decoderWidths m (cs ++ [c]) = decoderWidths m cs ++ [decoderWidthAfter m cs] := by
  simp only [decoderWidths, List.length_append, List.length_singleton, List.range_succ,
    List.map_append, List.map_cons, List.map_nil]
  congr 1
  · apply List.map_congr_left
    intro i hi
    rw [List.take_append_of_le_length (Nat.le_of_lt (List.mem_range.1 hi))]
  · rw [List.take_left']
    rfl

theorem decoderWidthAfter_snoc (m : Nat) (cs : List Nat) (c : Nat) :
    (cs ++ [c]).foldl (decoderNext m) (m + 1, 0)
      = decoderNext m (cs.foldl (decoderNext m) (m + 1, 0)) c := by
  simp [List.foldl_append]

theorem lzwStepCodes_curCode (pal : GifPalette) (s : LzwState) (v : Nat)
    (h : lzwStepCodes pal s v ≠ []) : 0 ≤ s.curCode := by
  by_contra hneg
  apply h
  have hlt : s.curCode < 0 := by omega
  simp [lzwStepCodes, ctlStep, ctlOf, hlt]

theorem toU32_run_code (bd : Nat) (h1 : 1 ≤ bd) (h8 : bd ≤ 8) (c : LzwCtl)
    (hd : DictInv (2 ^ bd) bd c) (h0 : 0 ≤ c.curCode) :
    toU32 c.curCode ≠ 2 ^ bd := by
  obtain ⟨hlo, hhi, _⟩ := two_pow_bitDepth_bounds bd h1 h8
  obtain ⟨hcur, _⟩ := hd
  rcases hcur with h | ⟨_, h4, hcase⟩
  · omega
  · have hmod : c.curCode % 2 ^ 32 = c.curCode := Int.emod_eq_of_lt h0 (by omega)
    simp only [toU32, hmod]
    rcases hcase with h | h
    · have : c.curCode.toNat < 2 ^ bd := by
        have := Int.toNat_of_nonneg h0
        omega
      omega
    · have : 2 ^ bd + 2 ≤ c.curCode.toNat := by
        have := Int.toNat_of_nonneg h0
        have hc : ((2 ^ bd + 2 : Nat) : Int) ≤ c.curCode := by push_cast; exact h
        omega
      omega
/-- The condition on which the decoder widens after a code, in terms of the
compressor's `maxCode` and `codeSize`. -/
theorem decoder_widens_iff (bd cs mc n : Nat) (hcs : cs ≤ 12) (h1 : 2 ^ (cs - 1) ≤ mc)
    (h2 : mc < 2 ^ cs) (h3 : mc ≤ 4094) (hn : n + (2 ^ bd + 1) = mc) :
    (2 ^ bd + 1 + (n + 1) ≥ 2 ^ cs ∧ cs < 12) ↔ mc + 1 = 2 ^ cs := by
  constructor
  · rintro ⟨h, _⟩
    omega
  · intro h
    refine ⟨by omega, ?_⟩
    by_contra hge
    have : cs = 12 := by omega
    subst this
    norm_num at h
    omega

/-- Every code of the pixel loop is written at the width at which the decoder
reads it, and after them the decoder's width and count are the compressor's
`codeSize` and the number of run codes since the last clear code. -/
theorem loop_widths_in_sync (f : List Nat) (pal : GifPalette) (pre : List Nat)
    (h1 : 1 ≤ pal.bitDepth) (h8 : pal.bitDepth ≤ 8)
    (hpre : ∀ x ∈ pre, x < 2 ^ pal.bitDepth) :
    decoderWidths pal.bitDepth
        (((codesAfter pal pre).map (LzwOut.pair (2 ^ pal.bitDepth))).map Prod.fst)
      = ((codesAfter pal pre).map (LzwOut.pair (2 ^ pal.bitDepth))).map Prod.snd ∧
    (((codesAfter pal pre).map (LzwOut.pair (2 ^ pal.bitDepth))).map Prod.fst).foldl
        (decoderNext pal.bitDepth) (pal.bitDepth + 1, 0)
      = ((lzwStateAfter f pal pre).codeSize, runsSinceClear (codesAfter pal pre)) := by
  obtain ⟨hlo, hhi, _⟩ := two_pow_bitDepth_bounds pal.bitDepth h1 h8
  induction pre using List.reverseRecOn with
  | nil =>
    have hc : codesAfter pal [] = [LzwOut.clear (pal.bitDepth + 1)] := rfl
    have hs : (lzwStateAfter f pal []).codeSize = pal.bitDepth + 1 := rfl
    rw [hc, hs]
    simp only [List.map_cons, List.map_nil, LzwOut.pair]
    constructor
    · rw [show [2 ^ pal.bitDepth] = [] ++ [2 ^ pal.bitDepth] from rfl, decoderWidths_snoc]
      rfl
    · simp [decoderNext, runsSinceClear]
  | append_singleton pre v ih =>
    have hpre' : ∀ x ∈ pre, x < 2 ^ pal.bitDepth :=
      fun x hx => hpre x (List.mem_append_left _ hx)
    obtain ⟨ihw, ihs⟩ := ih hpre'
    obtain ⟨⟨_, i2, i3, i4, _, i6⟩, _, hcases⟩ := lzwStep_cases f pal pre v h1 h8
    simp only [ctlOf] at i2 i3 i4 i6
    have hcount := runsSinceClear_codesAfter f pal pre h1 h8
    have hdict := lzwStateAfter_DictInv (2 ^ pal.bitDepth) f pal h1 h8 hhi pre hpre'
    rw [codesAfter_snoc f]
    rcases hcases with ⟨ho, hcs, _, _⟩ | ⟨hne, ho, _, hcs⟩ | ⟨_, hcs12, ho, hcs, _, _⟩
    · rw [ho, List.append_nil, hcs]
      exact ⟨ihw, ihs⟩
    · have hcur := lzwStepCodes_curCode pal _ v (by rw [ho]; simp)
      have hrun := toU32_run_code pal.bitDepth h1 h8 _ hdict hcur
      simp only [ctlOf] at hrun
      rw [ho, hcs]
      simp only [List.map_append, List.map_cons, List.map_nil, LzwOut.pair]
      rw [decoderWidths_snoc, decoderWidthAfter_snoc, ihw, decoderWidthAfter, ihs,
        runsSinceClear_append]
      refine ⟨rfl, ?_⟩
      simp only [decoderNext, if_neg hrun, List.foldl_cons, List.foldl_nil]
      have hiff := decoder_widens_iff pal.bitDepth (lzwStateAfter f pal pre).codeSize
        (lzwStateAfter f pal pre).maxCode (runsSinceClear (codesAfter pal pre)) i2 i3 i4 i6 hcount
      by_cases hb : (lzwStateAfter f pal pre).maxCode + 1
          = 2 ^ (lzwStateAfter f pal pre).codeSize
      · rw [if_pos (hiff.2 hb), if_pos hb]
      · rw [if_neg (fun h => hb (hiff.1 h)), if_neg hb]
    · have hcur := lzwStepCodes_curCode pal _ v (by rw [ho]; simp)
      have hrun := toU32_run_code pal.bitDepth h1 h8 _ hdict hcur
      simp only [ctlOf] at hrun
      rw [ho, hcs]
      simp only [List.map_append, List.map_cons, List.map_nil, LzwOut.pair]
      rw [show ∀ (l : List Nat) (a b : Nat), l ++ [a, b] = (l ++ [a]) ++ [b] from
        fun l a b => by simp]
      rw [decoderWidths_snoc, decoderWidths_snoc, decoderWidthAfter_snoc,
        decoderWidthAfter_snoc, ihw, decoderWidthAfter, decoderWidthAfter,
        decoderWidthAfter_snoc, ihs, runsSinceClear_append, hcs12]
      simp [decoderNext, hrun]
theorem frameCodes_eq_codesAfter (pal : GifPalette) (pixels : List Nat) :
    frameCodes pal pixels
      = codesAfter pal pixels ++
        [LzwOut.run (toU32 (ctlAfter pal pixels).curCode) (ctlAfter pal pixels).codeSize,
         LzwOut.clear (ctlAfter pal pixels).codeSize, LzwOut.stop (pal.bitDepth + 1)] := by
  simp [frameCodes, codesAfter]

/-- For a non-empty frame with indices below `2 ^ bitDepth` and a bit depth from 1
to 8, all codes of the frame are written at the widths at which the decoder reads
them exactly when the code that would be assigned after the last run code,
`maxCode + 1`, is not `2 ^ codeSize`: up to the last run code the widths always
agree, then the decoder widens on that boundary and the footer does not. -/
theorem frame_widths_agree_iff (f : List Nat) (pal : GifPalette) (pixels : List Nat)
    (h1 : 1 ≤ pal.bitDepth) (h8 : pal.bitDepth ≤ 8) (hne : pixels ≠ [])
    (hvalid : ∀ x ∈ pixels, x < 2 ^ pal.bitDepth) :
    decoderWidths pal.bitDepth
        (((frameCodes pal pixels).map (LzwOut.pair (2 ^ pal.bitDepth))).map Prod.fst)
      = ((frameCodes pal pixels).map (LzwOut.pair (2 ^ pal.bitDepth))).map Prod.snd ↔
    (lzwStateAfter f pal pixels).maxCode + 1 ≠ 2 ^ (lzwStateAfter f pal pixels).codeSize := by
  obtain ⟨hlo, hhi, _⟩ := two_pow_bitDepth_bounds pal.bitDepth h1 h8
  obtain ⟨ihw, ihs⟩ := loop_widths_in_sync f pal pixels h1 h8 hvalid
  have hctl := ctlOf_lzwStateAfter f pal pixels
  have hcur : (ctlAfter pal pixels).curCode = (lzwStateAfter f pal pixels).curCode :=
    (congrArg LzwCtl.curCode hctl).symm
  have hsize : (ctlAfter pal pixels).codeSize = (lzwStateAfter f pal pixels).codeSize :=
    (congrArg LzwCtl.codeSize hctl).symm
  have hw : WidthInv pal.bitDepth (ctlOf (lzwStateAfter f pal pixels)) := by
    rw [hctl]; exact ctlAfter_WidthInv pal h1 h8 pixels
  obtain ⟨_, i2, i3, i4, _, i6⟩ := hw
  simp only [ctlOf] at i2 i3 i4 i6
  have hcount := runsSinceClear_codesAfter f pal pixels h1 h8
  have hdict := lzwStateAfter_DictInv (2 ^ pal.bitDepth) f pal h1 h8 hhi pixels hvalid
  have hnonneg : 0 ≤ (lzwStateAfter f pal pixels).curCode := by
    rw [← hcur]
    exact ctlRun_curCode_nonneg _ _ _ _ (Or.inl hne)
  have hrun := toU32_run_code pal.bitDepth h1 h8 _ hdict hnonneg
  simp only [ctlOf] at hrun
  have hiff := decoder_widens_iff pal.bitDepth (lzwStateAfter f pal pixels).codeSize
    (lzwStateAfter f pal pixels).maxCode (runsSinceClear (codesAfter pal pixels)) i2 i3 i4 i6
    hcount
  rw [frameCodes_eq_codesAfter, hcur, hsize]
  simp only [List.map_append, List.map_cons, List.map_nil, LzwOut.pair]
  rw [show ∀ (l : List Nat) (a b c : Nat), l ++ [a, b, c] = ((l ++ [a]) ++ [b]) ++ [c] from
    fun l a b c => by simp]
  rw [decoderWidths_snoc, decoderWidths_snoc, decoderWidths_snoc, ihw,
    decoderWidthAfter, decoderWidthAfter, decoderWidthAfter,
    decoderWidthAfter_snoc, decoderWidthAfter_snoc, ihs]
  simp only [decoderNext, if_neg hrun, if_true, List.append_assoc, List.singleton_append,
    List.append_cancel_left_eq, List.cons.injEq, and_true, true_and]
  by_cases hb : (lzwStateAfter f pal pixels).maxCode + 1
      = 2 ^ (lzwStateAfter f pal pixels).codeSize
  · rw [if_pos (hiff.2 hb)]
    constructor
    · intro h
      simp at h
    · intro h; exact absurd hb h
  · rw [if_neg (fun h => hb (hiff.1 h))]
    exact ⟨fun _ => hb, fun _ => by simp⟩

end GifH
